import Mathlib

/-!
Shallow embedding of the mhashtable library (mhashtable.c / mhashtable.h).

Machine integers (size_t, uintptr_t, uint64_t) are modelled as Nat with
explicit reduction modulo 2^64 where the C code can overflow.  Pointers are
modelled as Nat identifiers (0 plays the role of NULL); heap buffers are
modelled as List Nat (one Nat per byte).  malloc / calloc success is supplied
by an explicit boolean allocation plan, so allocation-failure paths of the C
code become ordinary branches of the Lean functions.
-/

namespace MHT

/-- SIZE_MAX for the 64-bit configuration the library targets
(SIZE_MAX > UINT32_MAX branch of the C sources). -/
def SIZE_MAX : Nat := 2 ^ 64 - 1

/-- Modulus of 64-bit unsigned arithmetic. -/
def M64 : Nat := 2 ^ 64

/-- wang_hash64 from mhashtable.c, with every addition and shift reduced
modulo 2^64 exactly where the C uint64_t arithmetic wraps; the bitwise
complement of a 64-bit value x is 2^64 - 1 - x. -/
def wang_hash64 (num : Nat) : Nat :=
  let n0 := num % M64
  let n1 := ((M64 - 1 - n0) + (n0 <<< 21)) % M64
  let n2 := n1 ^^^ (n1 >>> 24)
  let n3 := ((n2 + (n2 <<< 3)) + (n2 <<< 8)) % M64
  let n4 := n3 ^^^ (n3 >>> 14)
  let n5 := ((n4 + (n4 <<< 2)) + (n4 <<< 4)) % M64
  let n6 := n5 ^^^ (n5 >>> 28)
  let n7 := (n6 + (n6 <<< 31)) % M64
  n7

/-- djb2_hash64n from mhashtable.c.  The C function reads p[0] .. p[len-1]
and stops early at a 0 byte; the list argument stands for exactly those len
bytes of the buffer. -/
def djb2_hash64n : List Nat → Nat → Nat
  | [], h => h
  | b :: bs, h => if b == 0 then h else djb2_hash64n bs ((h * 33 + b) % M64)

/-- hash_uint_key from mhashtable.c (the SIZE_MAX > UINT32_MAX branch). -/
def hash_uint_key (key size : Nat) : Nat :=
  let h := wang_hash64 key
  (h ^^^ (h >>> 32)) &&& (size - 1)

/-- hash_str_key from mhashtable.c: a NULL pointer, zero length or zero size
yields index 0 (with errno set); otherwise the djb2 hash folded and masked.
The list argument is the len bytes of the key buffer, so the NULL-pointer and
zero-length guards both collapse into the empty-list case here. -/
def hash_str_key (bytes : List Nat) (size : Nat) : Nat :=
  if bytes.isEmpty || size == 0 then 0
  else
    let h := djb2_hash64n bytes 5381
    (h ^^^ (h >>> 32)) &&& (size - 1)

/-- KeyType from mhashtable.c. -/
inductive KeyType where
  | uint
  | str
  deriving DecidableEq

/-- A key argument as it reaches the generic table routines: either a
uint_keyt value, or the first len bytes of a str_keyt buffer. -/
inductive KeyRef where
  | uint (k : Nat)
  | str (bytes : List Nat)
  deriving DecidableEq

/-- The key_type tag a key argument carries (the KeyUni.key_type field). -/
def keyTypeOf : KeyRef → KeyType
  | .uint _ => .uint
  | .str _ => .str

/-- The key comparison performed by the chain scans of mht_set_generic,
mht_get_without_lock_generic and mht_delete_without_lock_generic:
uint keys compare by value, str keys by str_key_equal, i.e. equal length
and memcmp over that length, which on an exact-length byte list is list
equality.  Cross-variant comparison is false (the scans test the table
key_type first). -/
def eqKey : KeyRef → KeyRef → Bool
  | .uint a, .uint b => a == b
  | .str a, .str b => a == b
  | _, _ => false

/-- Dispatch of the index computation on the table key_type, as done in
mht_set_generic / get / delete. -/
def hashKey : KeyRef → Nat → Nat
  | .uint k, size => hash_uint_key k size
  | .str bytes, size => hash_str_key bytes size

/-- A stored value slot.  value_size != 0 in the C code means the table owns
a heap copy of the bytes (managed); value_size == 0 means the caller pointer
is stored verbatim (raw).  The managed constructor carries the identifier of
the buffer the table allocated together with the copied bytes. -/
inductive Val where
  | managed (id : Nat) (bytes : List Nat)
  | raw (ref : Nat)
  deriving DecidableEq

/-- The pointer stored in the value field of a chain node: the address of the
managed copy, or the raw caller reference. -/
def valId : Val → Nat
  | .managed id _ => id
  | .raw ref => ref

/-- Extracts the copied bytes of a managed slot. -/
def valBytes : Val → Option (List Nat)
  | .managed _ b => some b
  | .raw _ => none

/-- Whether a slot is in managed mode (value_size != 0 in the C code). -/
def isManaged : Val → Bool
  | .managed _ _ => true
  | .raw _ => false

/-- One chain node (MHtEntry).  key is the stored key (for str tables the
table-owned duplicate), dup the address of that duplicate buffer (0 for uint
tables, where no duplicate exists), node the address of the MHtEntry
allocation itself, val the value slot. -/
structure Entry where
  key : KeyRef
  dup : Nat
  node : Nat
  val : Val
  deriving DecidableEq

/-- The MHashTable record.  buckets holds the chains; the C size field always
equals the length of the allocated bucket array, so size is represented as
that length.  next is the allocator state: the next fresh address handed out
for nodes, duplicated keys and managed buffers. -/
structure Table where
  buckets : List (List Entry)
  count : Nat
  keyType : KeyType
  next : Nat
  deriving DecidableEq

/-- Number of buckets (the size field of MHashTable). -/
def Table.size (t : Table) : Nat := t.buckets.length

/-- All entries of the table in bucket-scan order, the traversal order used
by mht_rehash and mht_destroy. -/
def flattenT (t : Table) : List Entry := t.buckets.flatten

/-- mutils_strnlen, the bounded string length helper the library uses from
its companion utility header (an external collaborator of this repository):
the number of bytes before the first 0 byte, capped at maxlen. -/
def mutils_strnlen (bytes : List Nat) (maxlen : Nat) : Nat :=
  ((bytes.take maxlen).takeWhile (fun b => b != 0)).length

/-- mutils_strndup as used by mht_set_generic on the key buffer: a copy of
the bytes up to the first 0 byte (the C call duplicates at most len bytes,
and every caller has already validated that no 0 byte occurs among them, in
which case the copy is the full byte list). -/
def mutils_strndup (bytes : List Nat) : List Nat :=
  bytes.takeWhile (fun b => b != 0)

/-- str_keyt: a possibly NULL buffer pointer together with a declared
length.  The list models the readable bytes of the buffer. -/
structure str_keyt where
  ptr : Option (List Nat)
  len : Nat
  deriving DecidableEq

/-- mht_str_key_is_valid from mhashtable.c, clause for clause: NULL pointer,
then a leading 0 byte, then zero length, then an embedded 0 byte within the
declared length (mutils_strnlen shorter than len) each reject the key. -/
def mht_str_key_is_valid (k : str_keyt) : Bool :=
  match k.ptr with
  | none => false
  | some bytes =>
    if bytes.headD 0 == 0 then false
    else if k.len == 0 then false
    else if mutils_strnlen bytes k.len < k.len then false
    else true

/-- ht_is_power_of_two from the library header. -/
def ht_is_power_of_two (n : Nat) : Bool :=
  n != 0 && (n &&& (n - 1)) == 0

/-- The bit-smearing core of ht_next_power_of_two: after the six or-shift
steps every bit below the highest set bit of the input is set. -/
def smear64 (m : Nat) : Nat :=
  let a := m ||| (m >>> 1)
  let b := a ||| (a >>> 2)
  let c := b ||| (b >>> 4)
  let d := c ||| (c >>> 8)
  let e := d ||| (d >>> 16)
  e ||| (e >>> 32)

/-- ht_next_power_of_two from the library header (64-bit branch): 0 maps to
1, inputs above 2^63 report overflow as 0, and otherwise the predecessor is
bit-smeared and incremented. -/
def ht_next_power_of_two (n : Nat) : Nat :=
  if n == 0 then 1
  else if n > (SIZE_MAX >>> 1) + 1 then 0
  else smear64 (n - 1) + 1

/-- Failure modes of mht_create_without_register_generic, mirroring the
errno values it reports: EINVAL for size zero, EINVAL for an adjusted size
whose bucket array would not fit in SIZE_MAX bytes, ENOMEM for a failed
calloc of the table record or of the bucket array. -/
inductive CreateErr where
  | invalidSize
  | tooLarge
  | allocFail
  deriving DecidableEq

/-- mht_create_without_register_generic.  p1 and p2 are the outcomes of the
two calloc calls (table record, bucket array); sizeof(MHtEntry*) is 8 on the
64-bit configuration. -/
def mht_create_without_register_generic (p1 p2 : Bool) (size : Nat)
    (kt : KeyType) : Except CreateErr Table :=
  if size == 0 then .error .invalidSize
  else
    let size := if ht_is_power_of_two size then size else ht_next_power_of_two size
    if size > SIZE_MAX / 8 then .error .tooLarge
    else if !p1 then .error .allocFail
    else if !p2 then .error .allocFail
    else .ok { buckets := List.replicate size [], count := 0, keyType := kt, next := 1 }

/-- One relink step of the mht_rehash loop: the entry is pushed onto the
head of the chain it hashes to in the new bucket array. -/
def relink (bs : List (List Entry)) (e : Entry) : List (List Entry) :=
  let i := hashKey e.key bs.length
  bs.set i (e :: bs.getD i [])

/-- mht_rehash.  The two size guards come first (EIO paths), then the calloc
of the doubled bucket array whose outcome is allocOk; on any of those three
failures the table is returned untouched.  Otherwise every entry, in the scan
order of the old array, is relinked into the new one and size doubles. -/
def mht_rehash (allocOk : Bool) (t : Table) : Table :=
  if t.size > SIZE_MAX / 2 then t
  else if t.size * 2 > SIZE_MAX / 8 then t
  else if !allocOk then t
  else { t with
    buckets := (flattenT t).foldl relink (List.replicate (t.size * 2) ([] : List Entry)) }

/-- The chain scan shared by set, get and delete: the first entry whose key
compares equal. -/
def findInChain (key : KeyRef) : List Entry → Option Entry
  | [] => none
  | e :: r => if eqKey e.key key then some e else findInChain key r

/-- The overwrite performed by mht_set_generic on an existing key: the value
slot of the first matching entry is replaced, the rest of the chain is kept. -/
def overwriteChain (key : KeyRef) (v : Val) : List Entry → List Entry
  | [] => []
  | e :: r => if eqKey e.key key then { e with val := v } :: r else e :: overwriteChain key v r

/-- The unlink performed by mht_delete_without_lock_generic: the first
matching entry is removed from the chain. -/
def removeFromChain (key : KeyRef) : List Entry → List Entry
  | [] => []
  | e :: r => if eqKey e.key key then r else e :: removeFromChain key r

/-- The entry mht_get_without_lock_generic and mht_delete_without_lock_generic
locate for a key: the first match in the bucket the key hashes to. -/
def lookupEntry (t : Table) (key : KeyRef) : Option Entry :=
  findInChain key (t.buckets.getD (hashKey key t.size) [])

/-- Result of a mutating table call: the C boolean result, the table state
after the call, and the addresses of previously table-owned memory the call
released.  Memory both allocated and released inside the same failing call
(a fresh node or key duplicate discarded on a later allocation failure)
never belonged to the table between two calls and is not listed. -/
structure OpResult where
  ok : Bool
  t : Table
  freed : List Nat
  deriving DecidableEq

/-- The load-factor step at the top of mht_set_generic: when count / size
exceeds LOAD_FACTOR = 0.75 (an exact comparison, since count / size is exact
in double for every reachable table and 0.75 is representable, this is
4 * count > 3 * size) the table is rehashed; otherwise it is left alone. -/
def setStage (plan : Nat → Bool) (t : Table) : Table :=
  if 4 * t.count > 3 * t.size then mht_rehash (plan 0) t else t

/-- The existing-key overwrite branch of mht_set_generic: in managed mode
the replacement buffer is allocated first (failure leaves the entry intact),
then the old value pointer is freed and replaced by the fresh copy; in raw
mode the old value pointer is freed and the caller pointer stored. -/
def setHit (plan : Nat → Bool) (t2 : Table) (key : KeyRef) (i : Nat)
    (chain : List Entry) (e : Entry) (vptr : Nat) (vbytes : List Nat)
    (vsize : Nat) : OpResult :=
  if vsize != 0 then
    if plan 1 then
      ⟨true, { t2 with
          buckets := t2.buckets.set i (overwriteChain key (.managed t2.next vbytes) chain),
          next := t2.next + 1 }, [valId e.val]⟩
    else ⟨false, t2, []⟩
  else
    ⟨true, { t2 with
        buckets := t2.buckets.set i (overwriteChain key (.raw vptr) chain) }, [valId e.val]⟩

/-- The new-entry branch of mht_set_generic: node allocation, key
duplication for str tables, managed value copy, head insertion. -/
def setMiss (plan : Nat → Bool) (t2 : Table) (key : KeyRef) (i : Nat)
    (chain : List Entry) (vptr : Nat) (vbytes : List Nat) (vsize : Nat) :
    OpResult :=
  if !plan 1 then ⟨false, t2, []⟩
  else
    match key with
    | .uint k =>
      if vsize != 0 then
        if plan 3 then
          ⟨true, { t2 with
              buckets := t2.buckets.set i
                ({ key := .uint k, dup := 0, node := t2.next,
                   val := .managed (t2.next + 1) vbytes } :: chain),
              count := t2.count + 1, next := t2.next + 2 }, []⟩
        else ⟨false, t2, []⟩
      else
        ⟨true, { t2 with
            buckets := t2.buckets.set i
              ({ key := .uint k, dup := 0, node := t2.next,
                 val := .raw vptr } :: chain),
            count := t2.count + 1, next := t2.next + 1 }, []⟩
    | .str bytes =>
      if !plan 2 then ⟨false, t2, []⟩
      else
        if vsize != 0 then
          if plan 3 then
            ⟨true, { t2 with
                buckets := t2.buckets.set i
                  ({ key := .str (mutils_strndup bytes), dup := t2.next + 1,
                     node := t2.next, val := .managed (t2.next + 2) vbytes } :: chain),
                count := t2.count + 1, next := t2.next + 3 }, []⟩
          else ⟨false, t2, []⟩
        else
          ⟨true, { t2 with
              buckets := t2.buckets.set i
                ({ key := .str (mutils_strndup bytes), dup := t2.next + 1,
                   node := t2.next, val := .raw vptr } :: chain),
              count := t2.count + 1, next := t2.next + 2 }, []⟩

/-- The index computation and chain scan of mht_set_generic on the
post-rehash table, dispatching to the overwrite or new-entry branch. -/
def setInChain (plan : Nat → Bool) (t2 : Table) (key : KeyRef) (vptr : Nat)
    (vbytes : List Nat) (vsize : Nat) : OpResult :=
  match findInChain key (t2.buckets.getD (hashKey key t2.size) []) with
  | some e => setHit plan t2 key (hashKey key t2.size)
      (t2.buckets.getD (hashKey key t2.size) []) e vptr vbytes vsize
  | none => setMiss plan t2 key (hashKey key t2.size)
      (t2.buckets.getD (hashKey key t2.size) []) vptr vbytes vsize

/-- mht_set_generic.  plan gives the outcome of each allocation the call can
attempt: plan 0 the rehash bucket array, plan 1 the overwrite replacement
buffer or the new chain node, plan 2 the key duplicate for str tables,
plan 3 the managed value buffer of a new entry.  value_size == 0 selects raw
mode exactly as in the C code; vptr is the value_data pointer (0 for NULL)
and vbytes the value_size bytes it points to. -/
def mht_set_generic (plan : Nat → Bool) (t : Table) (key : KeyRef)
    (vptr : Nat) (vbytes : List Nat) (vsize : Nat) : OpResult :=
  if vptr == 0 then ⟨false, t, []⟩
  else if keyTypeOf key != t.keyType then ⟨false, t, []⟩
  else setInChain plan (setStage plan t) key vptr vbytes vsize

/-- mht_get_without_lock_generic: key-type check, index computation, chain
scan; the found value pointer or NULL (none). -/
def mht_get_without_lock_generic (t : Table) (key : KeyRef) : Option Val :=
  if keyTypeOf key != t.keyType then none
  else (lookupEntry t key).map (·.val)

/-- mht_delete_without_lock_generic: the first matching entry is unlinked,
free(entry->value) releases the stored value pointer whatever its mode, and
free(entry) the node; the duplicated key buffer of a str entry is not freed
by this function.  count is decremented. -/
def mht_delete_without_lock_generic (t : Table) (key : KeyRef) : OpResult :=
  if keyTypeOf key != t.keyType then ⟨false, t, []⟩
  else
    match findInChain key (t.buckets.getD (hashKey key t.size) []) with
    | none => ⟨false, t, []⟩
    | some e =>
      ⟨true, { t with
          buckets := t.buckets.set (hashKey key t.size)
            (removeFromChain key (t.buckets.getD (hashKey key t.size) [])),
          count := t.count - 1 }, [valId e.val, e.node]⟩

/-- The key-argument precondition the public wrappers establish before the
generic routines run: uint keys are always acceptable, str keys must pass
mht_str_key_is_valid, which on the exact len-byte view of the buffer means a
nonempty byte list free of 0 bytes. -/
def keyOKb : KeyRef → Bool
  | .uint _ => true
  | .str bytes => !bytes.isEmpty && bytes.all (fun b => b != 0)

/-- The all-true allocation plan: every malloc / calloc of the call
succeeds. -/
def planT : Nat → Bool := fun _ => true

/-- Computable well-formedness of a table state, preserved by every public
operation: at least one bucket, every entry sits in the bucket its key
hashes to, and no chain holds two entries with equal keys. -/
def noDupKeys : List Entry → Bool
  | [] => true
  | e :: r => r.all (fun x => !eqKey e.key x.key) && noDupKeys r

/-- Bucket-placement check used by WFb: chain number i only holds entries
hashing to i. -/
def goodBucketsB (t : Table) : Bool :=
  (List.range t.size).all fun i =>
    (t.buckets.getD i []).all fun e => hashKey e.key t.size == i

/-- Well-formedness of a table state. -/
def WFb (t : Table) : Bool :=
  t.size != 0 && goodBucketsB t && t.buckets.all noDupKeys

/-- mht_uint_set_without_lock: rejects value_size zero (which would silently
select raw mode), then delegates to mht_set_generic with a uint key. -/
def mht_uint_set_without_lock (plan : Nat → Bool) (t : Table) (key : Nat)
    (vptr : Nat) (vbytes : List Nat) (vsize : Nat) : OpResult :=
  if vsize == 0 then ⟨false, t, []⟩
  else mht_set_generic plan t (.uint key) vptr vbytes vsize

/-- mht_uint_set_raw_without_lock: raw mode via value_size zero. -/
def mht_uint_set_raw_without_lock (plan : Nat → Bool) (t : Table) (key : Nat)
    (vptr : Nat) : OpResult :=
  mht_set_generic plan t (.uint key) vptr [] 0

/-- The len-byte view of a str_keyt buffer that the generic routines hash
and compare. -/
def strKeyBytes (k : str_keyt) : List Nat :=
  (k.ptr.getD []).take k.len

/-- mht_str_set_without_lock: rejects value_size zero and invalid string
keys, then delegates to mht_set_generic with the str key. -/
def mht_str_set_without_lock (plan : Nat → Bool) (t : Table) (k : str_keyt)
    (vptr : Nat) (vbytes : List Nat) (vsize : Nat) : OpResult :=
  if vsize == 0 then ⟨false, t, []⟩
  else if !mht_str_key_is_valid k then ⟨false, t, []⟩
  else mht_set_generic plan t (.str (strKeyBytes k)) vptr vbytes vsize

/-- mht_str_set_raw_without_lock: validates the key, then raw mode. -/
def mht_str_set_raw_without_lock (plan : Nat → Bool) (t : Table) (k : str_keyt)
    (vptr : Nat) : OpResult :=
  if !mht_str_key_is_valid k then ⟨false, t, []⟩
  else mht_set_generic plan t (.str (strKeyBytes k)) vptr [] 0

/-- mht_uint_get_without_lock. -/
def mht_uint_get_without_lock (t : Table) (key : Nat) : Option Val :=
  mht_get_without_lock_generic t (.uint key)

/-- mht_str_get_without_lock: invalid keys are rejected before the scan. -/
def mht_str_get_without_lock (t : Table) (k : str_keyt) : Option Val :=
  if !mht_str_key_is_valid k then none
  else mht_get_without_lock_generic t (.str (strKeyBytes k))

/-- mht_uint_delete_without_lock. -/
def mht_uint_delete_without_lock (t : Table) (key : Nat) : OpResult :=
  mht_delete_without_lock_generic t (.uint key)

/-- mht_str_delete_without_lock: invalid keys are rejected before the scan. -/
def mht_str_delete_without_lock (t : Table) (k : str_keyt) : OpResult :=
  if !mht_str_key_is_valid k then ⟨false, t, []⟩
  else mht_delete_without_lock_generic t (.str (strKeyBytes k))

/-- MHT_ENTRIES_INITIAL_SIZE from mhashtable.c. -/
def MHT_ENTRIES_INITIAL_SIZE : Nat := 256

/-- MHT_ENTRIES_TRIAL from mhashtable.c. -/
def MHT_ENTRIES_TRIAL : Nat := 4

/-- The retry loop of init in mhashtable.c: fuel counts the remaining
attempts, i the attempt number; succ i tells whether the allocations of
attempt i succeed.  Each attempt requests a registry of size
MHT_ENTRIES_INITIAL_SIZE through mht_create_without_register_generic.  The
returned pair lists the sizes requested by the attempts actually made and
reports whether the registry was obtained; init calls exit(EXIT_FAILURE)
exactly when it was not. -/
def initLoop (succ : Nat → Bool) : Nat → Nat → List Nat × Bool
  | 0, _ => ([], false)
  | fuel + 1, i =>
    let attempt := mht_create_without_register_generic (succ i) (succ i)
      MHT_ENTRIES_INITIAL_SIZE .uint
    match attempt with
    | .ok _ => ([MHT_ENTRIES_INITIAL_SIZE], true)
    | .error _ =>
      let rest := initLoop succ fuel (i + 1)
      (MHT_ENTRIES_INITIAL_SIZE :: rest.1, rest.2)

/-- The bootstrap of the instance registry performed lazily on the first
table creation: MHT_ENTRIES_TRIAL attempts of the loop above.  The first
component is the list of sizes requested, the second is true when the
registry was created and false when init terminates the process. -/
def initTrace (succ : Nat → Bool) : List Nat × Bool :=
  initLoop succ MHT_ENTRIES_TRIAL 0

/-- The sampled doubling property the specification ascribes to the retry
sizes: every retry requests twice the size of the attempt before it. -/
def sizesDoubleB : List Nat → Bool
  | [] => true
  | [_] => true
  | a :: b :: r => b == 2 * a && sizesDoubleB (b :: r)

/-- Lock events of the process-wide global lock. -/
inductive LockEv where
  | acq
  | rel
  deriving DecidableEq

/-- The path conditions of _mht_all_get in source order: out_count NULL,
pre-execution check failure, count too large for the snapshot array,
snapshot array allocation failure. -/
structure AllGetPath where
  outCountNull : Bool
  preFail : Bool
  countTooBig : Bool
  allocFail : Bool
  deriving DecidableEq

/-- The global-lock events _mht_all_get performs on each of its paths,
transcribed from the function body: mht_lock on entry; the out_count NULL
return and the count-too-large return leave without mht_unlock, every other
path unlocks before returning. -/
def allGetLockTrace (p : AllGetPath) : List LockEv :=
  if p.outCountNull then [.acq]
  else if p.preFail then [.acq, .rel]
  else if p.countTooBig then [.acq]
  else if p.allocFail then [.acq, .rel]
  else [.acq, .rel]

/-- The global-lock events of _mht_uint_set_raw, which wraps its body in
mht_lock / mht_unlock on every path; innerOk is the result of the wrapped
call and does not change the trace. -/
def uintSetRawLockTrace (innerOk : Bool) : List LockEv :=
  if innerOk then [.acq, .rel] else [.acq, .rel]

/-- A trace is balanced when it acquires exactly as often as it releases. -/
def balancedB (l : List LockEv) : Bool :=
  l.count .acq == l.count .rel

/-! Basic lemmas about keys, chains and bucket arrays. -/

theorem eqKey_iff (a b : KeyRef) : eqKey a b = true ↔ a = b := by
  cases a <;> cases b <;> simp [eqKey]

theorem eqKey_comm (a b : KeyRef) : eqKey a b = eqKey b a := by
  cases a <;> cases b <;> simp [eqKey, eq_comm]

theorem hashKey_lt (k : KeyRef) (size : Nat) (h : 0 < size) : hashKey k size < size := by
  have hle : ∀ x : Nat, x &&& (size - 1) < size := fun x =>
    lt_of_le_of_lt Nat.and_le_right (by omega)
  cases k with
  | uint a => exact hle _
  | str bytes =>
    simp only [hashKey, hash_str_key]
    by_cases hb : (bytes.isEmpty || size == 0) = true
    · simp [hb, h]
    · simp only [hb, if_false]
      exact hle _

theorem getD_set_self (l : List (List Entry)) (i : Nat) (c : List Entry)
    (h : i < l.length) : (l.set i c).getD i [] = c := by
  rw [List.getD_eq_getElem?_getD, List.getElem?_set_self h]
  rfl

theorem getD_set_other (l : List (List Entry)) (i j : Nat) (c : List Entry)
    (h : i ≠ j) : (l.set i c).getD j [] = l.getD j [] := by
  rw [List.getD_eq_getElem?_getD, List.getElem?_set_ne h, ← List.getD_eq_getElem?_getD]

theorem getD_mem (l : List (List Entry)) (i : Nat) (h : i < l.length) :
    l.getD i [] ∈ l := by
  rw [List.getD_eq_getElem?_getD, List.getElem?_eq_getElem h]
  exact List.getElem_mem h

theorem find_some (key : KeyRef) (c : List Entry) (e : Entry)
    (h : findInChain key c = some e) : e ∈ c ∧ eqKey e.key key = true := by
  induction c with
  | nil => simp [findInChain] at h
  | cons a r ih =>
    by_cases ha : eqKey a.key key = true
    · simp [findInChain, ha] at h
      subst h
      exact ⟨List.mem_cons_self _ _, ha⟩
    · simp [findInChain, ha] at h
      rcases ih h with ⟨hm, hk⟩
      exact ⟨List.mem_cons_of_mem _ hm, hk⟩

theorem find_none_iff (key : KeyRef) (c : List Entry) :
    findInChain key c = none ↔ ∀ e ∈ c, eqKey e.key key = false := by
  induction c with
  | nil => simp [findInChain]
  | cons a r ih =>
    by_cases ha : eqKey a.key key = true
    · constructor
      · intro hn
        simp [findInChain, ha] at hn
      · intro hall
        have := hall a (List.mem_cons_self a r)
        rw [this] at ha
        cases ha
    · have ha' : eqKey a.key key = false := by simpa using ha
      simp [findInChain, ha', ih]

theorem find_unique (key : KeyRef) (c : List Entry) (e : Entry)
    (hnd : noDupKeys c = true) (hm : e ∈ c) (hk : eqKey e.key key = true) :
    findInChain key c = some e := by
  induction c with
  | nil => simp at hm
  | cons a r ih =>
    simp only [noDupKeys, Bool.and_eq_true, List.all_eq_true] at hnd
    rcases List.mem_cons.mp hm with he | he
    · subst he
      simp [findInChain, hk]
    · have hak : eqKey a.key key = false := by
        have := hnd.1 e he
        rw [eqKey_iff] at hk
        subst hk
        simpa using this
      simp [findInChain, hak]
      exact ih hnd.2 he

theorem find_overwrite (key : KeyRef) (v : Val) (c : List Entry) :
    findInChain key (overwriteChain key v c) =
      (findInChain key c).map (fun e => { e with val := v }) := by
  induction c with
  | nil => simp [findInChain, overwriteChain]
  | cons a r ih =>
    by_cases ha : eqKey a.key key = true
    · simp [findInChain, overwriteChain, ha]
    · simp [findInChain, overwriteChain, ha, ih]

theorem find_other_overwrite (key k2 : KeyRef) (v : Val) (c : List Entry)
    (hne : eqKey k2 key = false) :
    findInChain k2 (overwriteChain key v c) = findInChain k2 c := by
  induction c with
  | nil => simp [overwriteChain]
  | cons a r ih =>
    by_cases ha : eqKey a.key key = true
    · have hak : a.key = key := (eqKey_iff _ _).mp ha
      have h2 : eqKey a.key k2 = false := by
        rw [hak, eqKey_comm]
        exact hne
      simp [overwriteChain, ha, findInChain, h2]
    · by_cases h2 : eqKey a.key k2 = true
      · simp [overwriteChain, ha, findInChain, h2]
      · simp [overwriteChain, ha, findInChain, h2, ih]

theorem find_remove_self (key : KeyRef) (c : List Entry)
    (hnd : noDupKeys c = true) :
    findInChain key (removeFromChain key c) = none := by
  induction c with
  | nil => simp [removeFromChain, findInChain]
  | cons a r ih =>
    simp only [noDupKeys, Bool.and_eq_true, List.all_eq_true] at hnd
    by_cases ha : eqKey a.key key = true
    · simp only [removeFromChain, ha, if_pos]
      rw [find_none_iff]
      intro e he
      have := hnd.1 e he
      rw [eqKey_iff] at ha
      rw [← ha]
      rw [eqKey_comm] at this
      simpa using this
    · simp [removeFromChain, ha, findInChain, ih hnd.2]

theorem find_remove_other (key k2 : KeyRef) (c : List Entry)
    (hne : eqKey k2 key = false) :
    findInChain k2 (removeFromChain key c) = findInChain k2 c := by
  induction c with
  | nil => simp [removeFromChain]
  | cons a r ih =>
    by_cases ha : eqKey a.key key = true
    · have hak : a.key = key := (eqKey_iff _ _).mp ha
      have h2 : eqKey a.key k2 = false := by
        rw [hak, eqKey_comm]
        exact hne
      simp [removeFromChain, ha, findInChain, h2]
    · by_cases h2 : eqKey a.key k2 = true
      · simp [removeFromChain, ha, findInChain, h2]
      · simp [removeFromChain, ha, findInChain, h2, ih]

theorem removeFromChain_sublist (key : KeyRef) (c : List Entry) :
    (removeFromChain key c).Sublist c := by
  induction c with
  | nil => simp [removeFromChain]
  | cons a r ih =>
    by_cases ha : eqKey a.key key = true
    · simp only [removeFromChain, ha, if_pos]
      exact (List.sublist_cons_self a r)
    · simp only [removeFromChain, ha, if_neg, Bool.false_eq_true, not_false_iff]
      exact ih.cons₂ a

theorem overwrite_keys (key : KeyRef) (v : Val) (c : List Entry) :
    (overwriteChain key v c).map (·.key) = c.map (·.key) := by
  induction c with
  | nil => simp [overwriteChain]
  | cons a r ih =>
    by_cases ha : eqKey a.key key = true
    · simp [overwriteChain, ha]
    · simp [overwriteChain, ha, ih]

/-! Duplicate-key freedom as a Pairwise property, and its transfer along
sublists and permutations. -/

/-- The relation underlying noDupKeys. -/
def keyNe (a b : Entry) : Prop := eqKey a.key b.key = false

theorem keyNe_symm {a b : Entry} (h : keyNe a b) : keyNe b a := by
  unfold keyNe at *
  rw [eqKey_comm]
  exact h

theorem noDupKeys_iff_pairwise (c : List Entry) :
    noDupKeys c = true ↔ c.Pairwise keyNe := by
  induction c with
  | nil => simp [noDupKeys]
  | cons a r ih =>
    simp [noDupKeys, List.pairwise_cons, ih, keyNe]

theorem noDupKeys_sublist {c d : List Entry} (hs : c.Sublist d)
    (hd : noDupKeys d = true) : noDupKeys c = true := by
  rw [noDupKeys_iff_pairwise] at *
  exact hd.sublist hs

theorem chain_sublist_flatten {c : List (List Entry)} {x : List Entry}
    (h : x ∈ c) : x.Sublist c.flatten := by
  induction c with
  | nil => simp at h
  | cons b r ih =>
    rcases List.mem_cons.mp h with hb | hb
    · subst hb
      simp only [List.flatten_cons]
      exact List.sublist_append_left x r.flatten
    · refine (ih hb).trans ?_
      simp only [List.flatten_cons]
      exact List.sublist_append_right b r.flatten

theorem getD_of_mem {l : List (List Entry)} {x : List Entry} (h : x ∈ l) :
    ∃ j, j < l.length ∧ l.getD j [] = x := by
  rcases List.mem_iff_getElem.mp h with ⟨j, hj, hx⟩
  refine ⟨j, hj, ?_⟩
  rw [List.getD_eq_getElem?_getD, List.getElem?_eq_getElem hj]
  simpa using hx

/-- When each chain is duplicate-free and chain number i only holds entries
whose key maps to off + i, the concatenation of the chains is pairwise
duplicate-free: equal keys would map to equal chain numbers. -/
theorem pairwise_flatten_aux (f : KeyRef → Nat) :
    ∀ (bs : List (List Entry)) (off : Nat),
      (∀ i, i < bs.length → ∀ e ∈ bs.getD i [], f e.key = off + i) →
      (∀ c ∈ bs, noDupKeys c = true) →
      bs.flatten.Pairwise keyNe
  | [], _, _, _ => by simp
  | b :: r, off, hidx, hnd => by
    simp only [List.flatten_cons]
    rw [List.pairwise_append]
    refine ⟨?_, ?_, ?_⟩
    · rw [← noDupKeys_iff_pairwise]
      exact hnd b (by simp)
    · refine pairwise_flatten_aux f r (off + 1) ?_ ?_
      · intro i hi e he
        have := hidx (i + 1) (by simpa using Nat.succ_lt_succ hi) e (by simpa using he)
        omega
      · intro c hc
        exact hnd c (by simp [hc])
    · intro e he g hg
      unfold keyNe
      by_contra hne
      have hk : eqKey e.key g.key = true := by
        revert hne
        cases eqKey e.key g.key <;> simp
      have hkey : e.key = g.key := (eqKey_iff _ _).mp hk
      have hfe : f e.key = off + 0 := hidx 0 (by simp) e (by simpa using he)
      obtain ⟨c, hc, hgc⟩ := List.mem_flatten.mp hg
      obtain ⟨j, hj, hcj⟩ := getD_of_mem hc
      have hfg : f g.key = (off + 1) + j := by
        have := hidx (j + 1) (by simpa using Nat.succ_lt_succ hj) g ?_
        · omega
        · rw [List.getD_cons_succ, hcj]
          exact hgc
      rw [hkey] at hfe
      omega

/-- In a well-formed table any two entries of the whole table have distinct
keys: entries of one chain by the per-chain check, entries of different
chains because they hash to different buckets. -/
theorem WFb_pairwise (t : Table) (h : WFb t = true) :
    (flattenT t).Pairwise keyNe := by
  have hgood : ∀ i, i < t.size → ∀ e ∈ t.buckets.getD i [],
      hashKey e.key t.size = i := by
    intro i hi e he
    simp only [WFb, goodBucketsB, Bool.and_eq_true, List.all_eq_true] at h
    have := h.1.2 i (List.mem_range.mpr hi) e he
    simpa using this
  have hnd : ∀ c ∈ t.buckets, noDupKeys c = true := by
    intro c hc
    simp only [WFb, Bool.and_eq_true, List.all_eq_true] at h
    exact h.2 c hc
  exact pairwise_flatten_aux (fun k => hashKey k t.size) t.buckets 0
    (fun i hi e he => by simpa using hgood i hi e he) hnd

/-! Rehash: entry preservation (as a permutation), bucket placement, and
well-formedness. -/

theorem flatten_replicate_nil (n : Nat) :
    (List.replicate n ([] : List Entry)).flatten = [] := by
  induction n with
  | zero => simp
  | succ m ih => simp [List.replicate_succ, ih]

theorem flatten_set_cons (bs : List (List Entry)) (i : Nat) (e : Entry)
    (h : i < bs.length) :
    (bs.set i (e :: bs.getD i [])).flatten.Perm (e :: bs.flatten) := by
  induction bs generalizing i with
  | nil => simp at h
  | cons b r ih =>
    cases i with
    | zero => simp
    | succ j =>
      have hj : j < r.length := by simpa using h
      simp only [List.set_cons_succ, List.getD_cons_succ, List.flatten_cons]
      have h2 := List.Perm.append_left b (ih j hj)
      exact h2.trans List.perm_middle

theorem relink_length (bs : List (List Entry)) (e : Entry) :
    (relink bs e).length = bs.length := by
  simp [relink]

theorem relink_perm (bs : List (List Entry)) (e : Entry) (h : 0 < bs.length) :
    (relink bs e).flatten.Perm (e :: bs.flatten) := by
  exact flatten_set_cons bs _ e (hashKey_lt e.key bs.length h)

theorem foldl_relink_length (es : List Entry) (bs : List (List Entry)) :
    (es.foldl relink bs).length = bs.length := by
  induction es generalizing bs with
  | nil => rfl
  | cons e r ih => simp [List.foldl_cons, ih, relink_length]

theorem foldl_relink_perm (es : List Entry) (bs : List (List Entry))
    (h : 0 < bs.length) :
    (es.foldl relink bs).flatten.Perm (es ++ bs.flatten) := by
  induction es generalizing bs with
  | nil => simp
  | cons e r ih =>
    have h2 : 0 < (relink bs e).length := by
      rw [relink_length]
      exact h
    have h1 := ih (relink bs e) h2
    have h3 := List.Perm.append_left r (relink_perm bs e h)
    have h4 : ((e :: r).foldl relink bs) = r.foldl relink (relink bs e) := rfl
    rw [h4, List.cons_append]
    exact h1.trans (h3.trans List.perm_middle)

theorem mht_rehash_count (ok : Bool) (t : Table) :
    (mht_rehash ok t).count = t.count := by
  unfold mht_rehash
  split
  · rfl
  split
  · rfl
  split
  · rfl
  rfl

theorem mht_rehash_keyType (ok : Bool) (t : Table) :
    (mht_rehash ok t).keyType = t.keyType := by
  unfold mht_rehash
  split
  · rfl
  split
  · rfl
  split
  · rfl
  rfl

theorem mht_rehash_size (ok : Bool) (t : Table) :
    (mht_rehash ok t).size = t.size ∨ (mht_rehash ok t).size = 2 * t.size := by
  unfold mht_rehash
  split
  · exact Or.inl rfl
  split
  · exact Or.inl rfl
  split
  · exact Or.inl rfl
  right
  show ((flattenT t).foldl relink (List.replicate (t.size * 2) [])).length = 2 * t.size
  rw [foldl_relink_length, List.length_replicate]
  omega

theorem mht_rehash_perm (ok : Bool) (t : Table) :
    (flattenT (mht_rehash ok t)).Perm (flattenT t) := by
  unfold mht_rehash
  split
  · exact List.Perm.refl _
  split
  · exact List.Perm.refl _
  split
  · exact List.Perm.refl _
  show ((flattenT t).foldl relink (List.replicate (t.size * 2) [])).flatten.Perm _
  rcases Nat.eq_zero_or_pos t.size with hz | hp
  · have hb : t.buckets = [] := List.length_eq_zero.mp hz
    simp [flattenT, hb, hz]
  · have h2 : 0 < (List.replicate (t.size * 2) ([] : List Entry)).length := by
      simp
      omega
    have := foldl_relink_perm (flattenT t) (List.replicate (t.size * 2) []) h2
    simpa [flatten_replicate_nil] using this

/-- Bucket-placement invariant of a bucket array of fixed length. -/
def goodBP (bs : List (List Entry)) : Prop :=
  ∀ i, i < bs.length → ∀ e ∈ bs.getD i [], hashKey e.key bs.length = i

theorem goodBP_relink (bs : List (List Entry)) (e : Entry) (h : goodBP bs) :
    goodBP (relink bs e) := by
  intro i hi f hf
  rw [relink_length] at hi ⊢
  by_cases hix : hashKey e.key bs.length = i
  · rw [show relink bs e = bs.set (hashKey e.key bs.length) (e :: bs.getD (hashKey e.key bs.length) []) from rfl] at hf
    rw [hix, getD_set_self _ _ _ hi] at hf
    rcases List.mem_cons.mp hf with hfe | hfe
    · subst hfe
      exact hix
    · exact h i hi f hfe
  · rw [show relink bs e = bs.set (hashKey e.key bs.length) (e :: bs.getD (hashKey e.key bs.length) []) from rfl] at hf
    rw [getD_set_other _ _ _ _ hix] at hf
    exact h i hi f hf

theorem goodBP_foldl (es : List Entry) (bs : List (List Entry)) (h : goodBP bs) :
    goodBP (es.foldl relink bs) := by
  induction es generalizing bs with
  | nil => exact h
  | cons e r ih => exact ih (relink bs e) (goodBP_relink bs e h)

theorem goodBP_replicate (n : Nat) : goodBP (List.replicate n ([] : List Entry)) := by
  intro i hi e he
  rw [List.length_replicate] at hi
  rw [List.getD_eq_getElem?_getD, List.getElem?_replicate] at he
  simp [hi] at he

theorem WFb_size_pos (t : Table) (h : WFb t = true) : 0 < t.size := by
  simp only [WFb, Bool.and_eq_true, bne_iff_ne, ne_eq] at h
  omega

theorem WFb_goodBP (t : Table) (h : WFb t = true) : goodBP t.buckets := by
  intro i hi e he
  simp only [WFb, goodBucketsB, Bool.and_eq_true, List.all_eq_true] at h
  have := h.1.2 i (List.mem_range.mpr hi) e he
  simpa using this

theorem WFb_noDup (t : Table) (h : WFb t = true) :
    ∀ c ∈ t.buckets, noDupKeys c = true := by
  intro c hc
  simp only [WFb, Bool.and_eq_true, List.all_eq_true] at h
  exact h.2 c hc

theorem WFb_of_parts (t : Table) (hsize : t.size ≠ 0) (hg : goodBP t.buckets)
    (hp : (flattenT t).Pairwise keyNe) : WFb t = true := by
  simp only [WFb, Bool.and_eq_true, bne_iff_ne, ne_eq, List.all_eq_true]
  refine ⟨⟨by exact_mod_cast hsize, ?_⟩, ?_⟩
  · simp only [goodBucketsB, List.all_eq_true]
    intro i hi e he
    rw [List.mem_range] at hi
    simpa using hg i hi e he
  · intro c hc
    rw [noDupKeys_iff_pairwise]
    exact hp.sublist (chain_sublist_flatten hc)

theorem mht_rehash_goodBP (ok : Bool) (t : Table) (h : goodBP t.buckets) :
    goodBP (mht_rehash ok t).buckets := by
  unfold mht_rehash
  split
  · exact h
  split
  · exact h
  split
  · exact h
  exact goodBP_foldl _ _ (goodBP_replicate _)

theorem WFb_rehash (ok : Bool) (t : Table) (h : WFb t = true) :
    WFb (mht_rehash ok t) = true := by
  refine WFb_of_parts _ ?_ (mht_rehash_goodBP ok t (WFb_goodBP t h)) ?_
  · have hp := WFb_size_pos t h
    rcases mht_rehash_size ok t with hs | hs <;> omega
  · have hperm := mht_rehash_perm ok t
    exact ((hperm.pairwise_iff fun hab => keyNe_symm hab).mpr) (WFb_pairwise t h)

/-! Characterization of the chain lookup in a well-formed table. -/

theorem lookup_some_iff (t : Table) (h : WFb t = true) (k : KeyRef) (e : Entry) :
    lookupEntry t k = some e ↔ (e ∈ flattenT t ∧ eqKey e.key k = true) := by
  have hpos := WFb_size_pos t h
  have hidx : hashKey k t.size < t.size := hashKey_lt k t.size hpos
  constructor
  · intro hl
    rcases find_some _ _ _ hl with ⟨hm, hk⟩
    refine ⟨List.mem_flatten.mpr ⟨_, getD_mem t.buckets _ hidx, hm⟩, hk⟩
  · rintro ⟨hm, hk⟩
    rcases List.mem_flatten.mp hm with ⟨c, hc, hec⟩
    rcases getD_of_mem hc with ⟨j, hj, hcj⟩
    have hje : hashKey e.key t.size = j := WFb_goodBP t h j hj e (by rw [hcj]; exact hec)
    have hkey : e.key = k := (eqKey_iff _ _).mp hk
    have hji : j = hashKey k t.size := by rw [← hje, hkey]
    subst hji
    unfold lookupEntry
    rw [hcj]
    exact find_unique k c e (WFb_noDup t h c hc) hec hk

theorem lookup_none_iff (t : Table) (h : WFb t = true) (k : KeyRef) :
    lookupEntry t k = none ↔ ∀ e ∈ flattenT t, eqKey e.key k = false := by
  constructor
  · intro hl e he
    by_contra hne
    have hk : eqKey e.key k = true := by
      revert hne
      cases eqKey e.key k <;> simp
    have := (lookup_some_iff t h k e).mpr ⟨he, hk⟩
    rw [hl] at this
    cases this
  · intro hall
    unfold lookupEntry
    rw [find_none_iff]
    intro e he
    have hpos := WFb_size_pos t h
    have hidx : hashKey k t.size < t.size := hashKey_lt k t.size hpos
    exact hall e (List.mem_flatten.mpr ⟨_, getD_mem t.buckets _ hidx, he⟩)

theorem lookup_rehash (ok : Bool) (t : Table) (k : KeyRef) (h : WFb t = true) :
    lookupEntry (mht_rehash ok t) k = lookupEntry t k := by
  have h2 := WFb_rehash ok t h
  have hperm := mht_rehash_perm ok t
  cases hl : lookupEntry t k with
  | some e =>
    rcases (lookup_some_iff t h k e).mp hl with ⟨hm, hk⟩
    exact (lookup_some_iff _ h2 k e).mpr ⟨hperm.mem_iff.mpr hm, hk⟩
  | none =>
    rw [lookup_none_iff _ h2]
    intro e he
    exact (lookup_none_iff t h k).mp hl e (hperm.mem_iff.mp he)

/-! Properties of the load-factor stage of mht_set_generic. -/

theorem setStage_count (plan : Nat → Bool) (t : Table) :
    (setStage plan t).count = t.count := by
  unfold setStage
  split
  · exact mht_rehash_count _ _
  · rfl

theorem setStage_keyType (plan : Nat → Bool) (t : Table) :
    (setStage plan t).keyType = t.keyType := by
  unfold setStage
  split
  · exact mht_rehash_keyType _ _
  · rfl

theorem setStage_size (plan : Nat → Bool) (t : Table) :
    (setStage plan t).size = t.size ∨ (setStage plan t).size = 2 * t.size := by
  unfold setStage
  split
  · exact mht_rehash_size _ _
  · exact Or.inl rfl

theorem setStage_size_pos (plan : Nat → Bool) (t : Table) (h : 0 < t.size) :
    0 < (setStage plan t).size := by
  rcases setStage_size plan t with hs | hs <;> omega

theorem setStage_perm (plan : Nat → Bool) (t : Table) :
    (flattenT (setStage plan t)).Perm (flattenT t) := by
  unfold setStage
  split
  · exact mht_rehash_perm _ _
  · exact List.Perm.refl _

theorem setStage_WFb (plan : Nat → Bool) (t : Table) (h : WFb t = true) :
    WFb (setStage plan t) = true := by
  unfold setStage
  split
  · exact WFb_rehash _ _ h
  · exact h

theorem setStage_lookup (plan : Nat → Bool) (t : Table) (k : KeyRef)
    (h : WFb t = true) : lookupEntry (setStage plan t) k = lookupEntry t k := by
  unfold setStage
  split
  · exact lookup_rehash _ _ _ h
  · rfl

theorem strndup_eq_self (bytes : List Nat) (h : keyOKb (.str bytes) = true) :
    mutils_strndup bytes = bytes := by
  simp only [keyOKb, Bool.and_eq_true, List.all_eq_true] at h
  rw [mutils_strndup, List.takeWhile_eq_self_iff]
  exact h.2

/-! Dissection of the set path: effect of a bucket update on the lookup,
and preservation of well-formedness. -/

theorem get_of_set_bucket (t2 T : Table) (key : KeyRef) (newChain : List Entry)
    (hb : T.buckets = t2.buckets.set (hashKey key t2.size) newChain)
    (hkt : T.keyType = t2.keyType) (ht : keyTypeOf key = t2.keyType)
    (hpos : 0 < t2.size) :
    mht_get_without_lock_generic T key = (findInChain key newChain).map (·.val) := by
  have hsz : T.size = t2.size := by
    show T.buckets.length = t2.buckets.length
    rw [hb, List.length_set]
  unfold mht_get_without_lock_generic
  rw [if_neg (by simp [hkt, ht])]
  unfold lookupEntry
  rw [hsz, hb, getD_set_self _ _ _ (hashKey_lt key t2.size hpos)]

theorem all_key_of_map_eq (p : KeyRef → Bool) (c d : List Entry)
    (h : c.map (·.key) = d.map (·.key)) :
    c.all (fun x => p x.key) = d.all (fun x => p x.key) := by
  have haux : ∀ l : List Entry, l.all (fun x => p x.key) = (l.map (·.key)).all p := by
    intro l
    induction l with
    | nil => rfl
    | cons a r ih => simp [ih]
  rw [haux, haux, h]

theorem noDup_overwrite (key : KeyRef) (v : Val) (c : List Entry) :
    noDupKeys (overwriteChain key v c) = noDupKeys c := by
  induction c with
  | nil => rfl
  | cons a r ih =>
    by_cases ha : eqKey a.key key = true
    · simp [overwriteChain, ha, noDupKeys]
    · simp only [overwriteChain, ha, Bool.false_eq_true, if_neg, not_false_iff, noDupKeys, ih]
      rw [all_key_of_map_eq (fun x => !eqKey a.key x) _ _ (overwrite_keys key v r)]

theorem mem_overwrite_key (key : KeyRef) (v : Val) (c : List Entry) (x : Entry)
    (h : x ∈ overwriteChain key v c) : ∃ e ∈ c, x.key = e.key := by
  induction c with
  | nil => simp [overwriteChain] at h
  | cons a r ih =>
    by_cases ha : eqKey a.key key = true
    · simp only [overwriteChain, ha, if_pos] at h
      rcases List.mem_cons.mp h with hx | hx
      · exact ⟨a, by simp, by rw [hx]⟩
      · exact ⟨x, by simp [hx], rfl⟩
    · simp only [overwriteChain, ha, Bool.false_eq_true, if_neg, not_false_iff] at h
      rcases List.mem_cons.mp h with hx | hx
      · exact ⟨a, by simp, by rw [hx]⟩
      · rcases ih hx with ⟨e, he, hk⟩
        exact ⟨e, by simp [he], hk⟩

theorem mem_of_mem_set (l : List (List Entry)) (i : Nat) (c x : List Entry)
    (h : x ∈ l.set i c) : x ∈ l ∨ x = c := by
  induction l generalizing i with
  | nil => simp at h
  | cons b r ih =>
    cases i with
    | zero =>
      rcases List.mem_cons.mp h with hx | hx
      · exact Or.inr hx
      · exact Or.inl (by simp [hx])
    | succ j =>
      rcases List.mem_cons.mp h with hx | hx
      · exact Or.inl (by simp [hx])
      · rcases ih j hx with hx2 | hx2
        · exact Or.inl (by simp [hx2])
        · exact Or.inr hx2

/-- Well-formedness is preserved by replacing the bucket a key hashes to
with a chain whose entries still hash there and still carry pairwise
distinct keys. -/
theorem WFb_set_bucket (t2 T : Table) (key : KeyRef) (newChain : List Entry)
    (hw : WFb t2 = true)
    (hb : T.buckets = t2.buckets.set (hashKey key t2.size) newChain)
    (hhash : ∀ e ∈ newChain, hashKey e.key t2.size = hashKey key t2.size)
    (hnd : noDupKeys newChain = true) : WFb T = true := by
  have hpos := WFb_size_pos t2 hw
  have hsz : T.size = t2.size := by
    show T.buckets.length = t2.buckets.length
    rw [hb, List.length_set]
  have hidx : hashKey key t2.size < t2.buckets.length := hashKey_lt key t2.size hpos
  simp only [WFb, Bool.and_eq_true, bne_iff_ne, ne_eq, List.all_eq_true]
  refine ⟨⟨?_, ?_⟩, ?_⟩
  · rw [hsz]
    omega
  · simp only [goodBucketsB, List.all_eq_true]
    intro j hj e he
    rw [List.mem_range, hsz] at hj
    rw [hsz]
    rw [hb] at he
    by_cases hji : j = hashKey key t2.size
    · subst hji
      rw [getD_set_self _ _ _ hidx] at he
      simp [hhash e he]
    · rw [getD_set_other _ _ _ _ (fun h => hji h.symm)] at he
      simp only [beq_iff_eq]
      exact WFb_goodBP t2 hw j hj e he
  · intro c hc
    rcases mem_of_mem_set _ _ _ _ (hb ▸ hc) with hold | hnew
    · exact WFb_noDup t2 hw c hold
    · rw [hnew]
      exact hnd

/-- Joint effect of the two overwrite leaves of mht_set_generic: the lookup
afterwards returns the new value, and well-formedness is preserved. -/
theorem overwrite_facts (t2 : Table) (key : KeyRef) (v : Val) (nxt : Nat)
    (e : Entry)
    (hpos : 0 < t2.size) (ht : keyTypeOf key = t2.keyType)
    (hfind : findInChain key (t2.buckets.getD (hashKey key t2.size) []) = some e) :
    mht_get_without_lock_generic
      { buckets := t2.buckets.set (hashKey key t2.size)
          (overwriteChain key v (t2.buckets.getD (hashKey key t2.size) [])),
        count := t2.count, keyType := t2.keyType, next := nxt } key = some v ∧
    (WFb t2 = true → WFb
      { buckets := t2.buckets.set (hashKey key t2.size)
          (overwriteChain key v (t2.buckets.getD (hashKey key t2.size) [])),
        count := t2.count, keyType := t2.keyType, next := nxt } = true) := by
  set T : Table :=
    { buckets := t2.buckets.set (hashKey key t2.size)
        (overwriteChain key v (t2.buckets.getD (hashKey key t2.size) [])),
      count := t2.count, keyType := t2.keyType, next := nxt } with hT
  have hb : T.buckets = t2.buckets.set (hashKey key t2.size)
      (overwriteChain key v (t2.buckets.getD (hashKey key t2.size) [])) := rfl
  have hkt : T.keyType = t2.keyType := rfl
  constructor
  · rw [get_of_set_bucket t2 T key _ hb hkt ht hpos, find_overwrite, hfind]
    rfl
  · intro hw
    have hidx : hashKey key t2.size < t2.buckets.length :=
      hashKey_lt key t2.size (WFb_size_pos t2 hw)
    refine WFb_set_bucket t2 T key _ hw hb ?_ ?_
    · intro x hx
      rcases mem_overwrite_key _ _ _ _ hx with ⟨e0, he0, hk0⟩
      rw [hk0]
      exact WFb_goodBP t2 hw _ hidx e0 he0
    · rw [noDup_overwrite]
      exact WFb_noDup t2 hw _ (getD_mem _ _ hidx)

/-- Joint effect of the four head-insertion leaves of mht_set_generic: the
lookup afterwards returns the freshly stored value, and well-formedness is
preserved. -/
theorem insert_facts (t2 : Table) (key : KeyRef) (newE : Entry) (nxt : Nat)
    (hpos : 0 < t2.size) (ht : keyTypeOf key = t2.keyType)
    (hkeyeq : newE.key = key)
    (hfind : findInChain key (t2.buckets.getD (hashKey key t2.size) []) = none) :
    mht_get_without_lock_generic
      { buckets := t2.buckets.set (hashKey key t2.size)
          (newE :: t2.buckets.getD (hashKey key t2.size) []),
        count := t2.count + 1, keyType := t2.keyType, next := nxt } key =
      some newE.val ∧
    (WFb t2 = true → WFb
      { buckets := t2.buckets.set (hashKey key t2.size)
          (newE :: t2.buckets.getD (hashKey key t2.size) []),
        count := t2.count + 1, keyType := t2.keyType, next := nxt } = true) := by
  set T : Table :=
    { buckets := t2.buckets.set (hashKey key t2.size)
        (newE :: t2.buckets.getD (hashKey key t2.size) []),
      count := t2.count + 1, keyType := t2.keyType, next := nxt } with hT
  have hb : T.buckets = t2.buckets.set (hashKey key t2.size)
      (newE :: t2.buckets.getD (hashKey key t2.size) []) := rfl
  have hkt : T.keyType = t2.keyType := rfl
  have hek : eqKey newE.key key = true := by
    rw [eqKey_iff, hkeyeq]
  constructor
  · rw [get_of_set_bucket t2 T key _ hb hkt ht hpos]
    simp [findInChain, hek]
  · intro hw
    have hidx : hashKey key t2.size < t2.buckets.length :=
      hashKey_lt key t2.size (WFb_size_pos t2 hw)
    refine WFb_set_bucket t2 T key _ hw hb ?_ ?_
    · intro x hx
      rcases List.mem_cons.mp hx with hx | hx
      · rw [hx, hkeyeq]
      · exact WFb_goodBP t2 hw _ hidx x hx
    · simp only [noDupKeys, Bool.and_eq_true, List.all_eq_true]
      constructor
      · intro x hx
        have hxf := (find_none_iff key _).mp hfind x hx
        rw [hkeyeq, eqKey_comm, hxf]
        rfl
      · exact WFb_noDup t2 hw _ (getD_mem _ _ hidx)

/-- Every failing branch of the chain stage leaves the staged table and
frees nothing that the table owned. -/
theorem setInChain_fail (plan : Nat → Bool) (t2 : Table) (key : KeyRef)
    (vptr : Nat) (vbytes : List Nat) (vsize : Nat)
    (hok : (setInChain plan t2 key vptr vbytes vsize).ok = false) :
    setInChain plan t2 key vptr vbytes vsize = ⟨false, t2, []⟩ := by
  unfold setInChain at hok ⊢
  cases hfind : findInChain key (t2.buckets.getD (hashKey key t2.size) []) with
  | some e =>
    simp only [hfind] at hok ⊢
    unfold setHit at hok ⊢
    by_cases hs : (vsize != 0) = true
    · by_cases hp : plan 1 = true
      · simp [hs, hp] at hok
      · simp [hs, hp]
    · simp [hs] at hok
  | none =>
    simp only [hfind] at hok ⊢
    unfold setMiss at hok ⊢
    by_cases h1 : (!plan 1) = true
    · simp [h1]
    · cases key with
      | uint k =>
        by_cases hs : (vsize != 0) = true
        · by_cases hp : plan 3 = true
          · simp [h1, hs, hp] at hok
          · simp [h1, hs, hp]
        · simp [h1, hs] at hok
      | str bytes =>
        by_cases h2 : (!plan 2) = true
        · simp [h1, h2]
        · by_cases hs : (vsize != 0) = true
          · by_cases hp : plan 3 = true
            · simp [h1, h2, hs, hp] at hok
            · simp [h1, h2, hs, hp]
          · simp [h1, h2, hs] at hok

/-- Joint description of every successful branch of the chain stage of
mht_set_generic: bucket count and key type are untouched, the key is
afterwards mapped to the supplied value (a managed copy of the value bytes,
or the raw pointer), the element count grows exactly on a new key, the
overwrite frees exactly the old value pointer, and well-formedness is
preserved. -/
theorem setInChain_success (plan : Nat → Bool) (t2 : Table) (key : KeyRef)
    (vptr : Nat) (vbytes : List Nat) (vsize : Nat)
    (hpos : 0 < t2.size) (ht : keyTypeOf key = t2.keyType)
    (hk : keyOKb key = true)
    (hok : (setInChain plan t2 key vptr vbytes vsize).ok = true) :
    (setInChain plan t2 key vptr vbytes vsize).t.size = t2.size ∧
    (setInChain plan t2 key vptr vbytes vsize).t.keyType = t2.keyType ∧
    (vsize ≠ 0 →
      (mht_get_without_lock_generic (setInChain plan t2 key vptr vbytes vsize).t key).map
          isManaged = some true ∧
      (mht_get_without_lock_generic (setInChain plan t2 key vptr vbytes vsize).t key).bind
          valBytes = some vbytes) ∧
    (vsize = 0 →
      mht_get_without_lock_generic (setInChain plan t2 key vptr vbytes vsize).t key =
        some (.raw vptr)) ∧
    (lookupEntry t2 key = none →
      (setInChain plan t2 key vptr vbytes vsize).t.count = t2.count + 1) ∧
    (∀ e, lookupEntry t2 key = some e →
      (setInChain plan t2 key vptr vbytes vsize).t.count = t2.count ∧
      (setInChain plan t2 key vptr vbytes vsize).freed = [valId e.val]) ∧
    (WFb t2 = true → WFb (setInChain plan t2 key vptr vbytes vsize).t = true) := by
  cases hfind : findInChain key (t2.buckets.getD (hashKey key t2.size) []) with
  | some e =>
    have hlk : lookupEntry t2 key = some e := hfind
    by_cases hs : (vsize != 0) = true
    · by_cases hp : plan 1 = true
      · have hres : setInChain plan t2 key vptr vbytes vsize =
            ⟨true,
              { buckets :=
                  t2.buckets.set (hashKey key t2.size)
                    (overwriteChain key (Val.managed t2.next vbytes)
                      (t2.buckets.getD (hashKey key t2.size) [])),
                count := t2.count, keyType := t2.keyType, next := t2.next + 1 },
              [valId e.val]⟩ := by
          unfold setInChain
          simp only [hfind]
          unfold setHit
          simp only [if_pos hs, if_pos hp]
        have hfacts := overwrite_facts t2 key (.managed t2.next vbytes) (t2.next + 1)
          e hpos ht hfind
        rw [hres]
        refine ⟨by simp [Table.size], rfl, ?_, ?_, ?_, ?_, fun hw => hfacts.2 hw⟩
        · intro _
          rw [hfacts.1]
          exact ⟨rfl, rfl⟩
        · intro hz
          rw [hz] at hs
          simp at hs
        · intro hcontra
          rw [hcontra] at hlk
          cases hlk
        · intro e2 he2
          rw [he2] at hlk
          injection hlk with hh
          subst hh
          exact ⟨rfl, rfl⟩
      · exfalso
        have hres : setInChain plan t2 key vptr vbytes vsize = ⟨false, t2, []⟩ := by
          unfold setInChain
          simp only [hfind]
          unfold setHit
          simp only [if_pos hs, if_neg hp]
        rw [hres] at hok
        cases hok
    · have hz0 : vsize = 0 := by simpa using hs
      have hres : setInChain plan t2 key vptr vbytes vsize =
          ⟨true,
            { buckets :=
                t2.buckets.set (hashKey key t2.size)
                  (overwriteChain key (Val.raw vptr)
                    (t2.buckets.getD (hashKey key t2.size) [])),
              count := t2.count, keyType := t2.keyType, next := t2.next },
            [valId e.val]⟩ := by
        unfold setInChain
        simp only [hfind]
        unfold setHit
        simp only [if_neg hs]
      have hfacts := overwrite_facts t2 key (.raw vptr) t2.next e hpos ht hfind
      rw [hres]
      refine ⟨by simp [Table.size], rfl, ?_, ?_, ?_, ?_, fun hw => hfacts.2 hw⟩
      · intro hne
        exact absurd hz0 hne
      · intro _
        exact hfacts.1
      · intro hcontra
        rw [hcontra] at hlk
        cases hlk
      · intro e2 he2
        rw [he2] at hlk
        injection hlk with hh
        subst hh
        exact ⟨rfl, rfl⟩
  | none =>
    have hlk : lookupEntry t2 key = none := hfind
    by_cases h1 : (!plan 1) = true
    · exfalso
      have hres : setInChain plan t2 key vptr vbytes vsize = ⟨false, t2, []⟩ := by
        unfold setInChain
        simp only [hfind]
        unfold setMiss
        simp only [if_pos h1]
      rw [hres] at hok
      cases hok
    · cases key with
      | uint k =>
        by_cases hs : (vsize != 0) = true
        · by_cases hp : plan 3 = true
          · have hres : setInChain plan t2 (.uint k) vptr vbytes vsize =
                ⟨true,
                  { buckets :=
                      t2.buckets.set (hashKey (.uint k) t2.size)
                        ({ key := .uint k, dup := 0, node := t2.next,
                           val := .managed (t2.next + 1) vbytes } ::
                          t2.buckets.getD (hashKey (.uint k) t2.size) []),
                    count := t2.count + 1, keyType := t2.keyType,
                    next := t2.next + 2 },
                  []⟩ := by
              unfold setInChain
              simp only [hfind]
              unfold setMiss
              simp only [if_neg h1, if_pos hs, if_pos hp]
            have hfacts := insert_facts t2 (.uint k)
              { key := .uint k, dup := 0, node := t2.next,
                val := .managed (t2.next + 1) vbytes } (t2.next + 2) hpos ht rfl hfind
            rw [hres]
            refine ⟨by simp [Table.size], rfl, ?_, ?_, fun _ => rfl, ?_,
              fun hw => hfacts.2 hw⟩
            · intro _
              rw [hfacts.1]
              exact ⟨rfl, rfl⟩
            · intro hz
              rw [hz] at hs
              simp at hs
            · intro e2 he2
              rw [he2] at hlk
              cases hlk
          · exfalso
            have hres : setInChain plan t2 (.uint k) vptr vbytes vsize = ⟨false, t2, []⟩ := by
              unfold setInChain
              simp only [hfind]
              unfold setMiss
              simp only [if_neg h1, if_pos hs, if_neg hp]
            rw [hres] at hok
            cases hok
        · have hz0 : vsize = 0 := by simpa using hs
          have hres : setInChain plan t2 (.uint k) vptr vbytes vsize =
              ⟨true,
                { buckets :=
                    t2.buckets.set (hashKey (.uint k) t2.size)
                      ({ key := .uint k, dup := 0, node := t2.next,
                         val := .raw vptr } ::
                        t2.buckets.getD (hashKey (.uint k) t2.size) []),
                  count := t2.count + 1, keyType := t2.keyType,
                  next := t2.next + 1 },
                []⟩ := by
            unfold setInChain
            simp only [hfind]
            unfold setMiss
            simp only [if_neg h1, if_neg hs]
          have hfacts := insert_facts t2 (.uint k)
            { key := .uint k, dup := 0, node := t2.next, val := .raw vptr }
            (t2.next + 1) hpos ht rfl hfind
          rw [hres]
          refine ⟨by simp [Table.size], rfl, ?_, ?_, fun _ => rfl, ?_,
            fun hw => hfacts.2 hw⟩
          · intro hne
            exact absurd hz0 hne
          · intro _
            exact hfacts.1
          · intro e2 he2
            rw [he2] at hlk
            cases hlk
      | str bytes =>
        have hdup : mutils_strndup bytes = bytes := strndup_eq_self bytes hk
        by_cases h2 : (!plan 2) = true
        · exfalso
          have hres : setInChain plan t2 (.str bytes) vptr vbytes vsize = ⟨false, t2, []⟩ := by
            unfold setInChain
            simp only [hfind]
            unfold setMiss
            simp only [if_neg h1, if_pos h2]
          rw [hres] at hok
          cases hok
        · by_cases hs : (vsize != 0) = true
          · by_cases hp : plan 3 = true
            · have hres : setInChain plan t2 (.str bytes) vptr vbytes vsize =
                  ⟨true,
                    { buckets :=
                        t2.buckets.set (hashKey (.str bytes) t2.size)
                          ({ key := .str (mutils_strndup bytes), dup := t2.next + 1,
                             node := t2.next, val := .managed (t2.next + 2) vbytes } ::
                            t2.buckets.getD (hashKey (.str bytes) t2.size) []),
                      count := t2.count + 1, keyType := t2.keyType,
                      next := t2.next + 3 },
                    []⟩ := by
                unfold setInChain
                simp only [hfind]
                unfold setMiss
                simp only [if_neg h1, if_neg h2, if_pos hs, if_pos hp]
              have hfacts := insert_facts t2 (.str bytes)
                { key := .str (mutils_strndup bytes), dup := t2.next + 1,
                  node := t2.next, val := .managed (t2.next + 2) vbytes }
                (t2.next + 3) hpos ht (by simp [hdup]) hfind
              rw [hres]
              refine ⟨by simp [Table.size], rfl, ?_, ?_, fun _ => rfl, ?_,
                fun hw => hfacts.2 hw⟩
              · intro _
                rw [hfacts.1]
                exact ⟨rfl, rfl⟩
              · intro hz
                rw [hz] at hs
                simp at hs
              · intro e2 he2
                rw [he2] at hlk
                cases hlk
            · exfalso
              have hres : setInChain plan t2 (.str bytes) vptr vbytes vsize =
                  ⟨false, t2, []⟩ := by
                unfold setInChain
                simp only [hfind]
                unfold setMiss
                simp only [if_neg h1, if_neg h2, if_pos hs, if_neg hp]
              rw [hres] at hok
              cases hok
          · have hz0 : vsize = 0 := by simpa using hs
            have hres : setInChain plan t2 (.str bytes) vptr vbytes vsize =
                ⟨true,
                  { buckets :=
                      t2.buckets.set (hashKey (.str bytes) t2.size)
                        ({ key := .str (mutils_strndup bytes), dup := t2.next + 1,
                           node := t2.next, val := .raw vptr } ::
                          t2.buckets.getD (hashKey (.str bytes) t2.size) []),
                    count := t2.count + 1, keyType := t2.keyType,
                    next := t2.next + 2 },
                  []⟩ := by
              unfold setInChain
              simp only [hfind]
              unfold setMiss
              simp only [if_neg h1, if_neg h2, if_neg hs]
            have hfacts := insert_facts t2 (.str bytes)
              { key := .str (mutils_strndup bytes), dup := t2.next + 1,
                node := t2.next, val := .raw vptr }
              (t2.next + 2) hpos ht (by simp [hdup]) hfind
            rw [hres]
            refine ⟨by simp [Table.size], rfl, ?_, ?_, fun _ => rfl, ?_,
              fun hw => hfacts.2 hw⟩
            · intro hne
              exact absurd hz0 hne
            · intro _
              exact hfacts.1
            · intro e2 he2
              rw [he2] at hlk
              cases hlk

/-! Dissection of the delete path. -/

theorem chain_perm_remove (key : KeyRef) (c : List Entry) (e : Entry)
    (hfind : findInChain key c = some e) :
    c.Perm (e :: removeFromChain key c) := by
  induction c with
  | nil => simp [findInChain] at hfind
  | cons a r ih =>
    by_cases ha : eqKey a.key key = true
    · simp only [findInChain, ha, if_pos] at hfind
      injection hfind with hh
      subst hh
      simp only [removeFromChain, ha, if_pos]
      exact List.Perm.refl _
    · simp only [findInChain, ha, Bool.false_eq_true, if_neg, not_false_iff] at hfind
      simp only [removeFromChain, ha, Bool.false_eq_true, if_neg, not_false_iff]
      exact ((ih hfind).cons a).trans (List.Perm.swap e a _)

theorem flatten_set_remove (bs : List (List Entry)) (i : Nat) (key : KeyRef)
    (e : Entry) (h : i < bs.length)
    (hfind : findInChain key (bs.getD i []) = some e) :
    bs.flatten.Perm (e :: (bs.set i (removeFromChain key (bs.getD i []))).flatten) := by
  induction bs generalizing i with
  | nil => simp at h
  | cons b r ih =>
    cases i with
    | zero =>
      simp only [List.getD_cons_zero] at hfind ⊢
      simp only [List.set_cons_zero, List.flatten_cons]
      have hp := chain_perm_remove key b e hfind
      exact (hp.append_right r.flatten).trans (List.Perm.refl _)
    | succ j =>
      have hj : j < r.length := by simpa using h
      simp only [List.getD_cons_succ] at hfind ⊢
      simp only [List.set_cons_succ, List.flatten_cons]
      have hr := ih j hj hfind
      exact (List.Perm.append_left b hr).trans List.perm_middle

/-- Lookup in a table whose bucket for key was replaced, queried with a key
of the same bucket: the scan runs over the new chain. -/
theorem get_mk_set_same (t2 : Table) (key k2 : KeyRef) (newChain : List Entry)
    (cnt nxt : Nat) (ht2 : keyTypeOf k2 = t2.keyType) (hpos : 0 < t2.size)
    (hh : hashKey k2 t2.size = hashKey key t2.size) :
    mht_get_without_lock_generic
      (Table.mk (t2.buckets.set (hashKey key t2.size) newChain) cnt t2.keyType nxt) k2 =
      (findInChain k2 newChain).map (·.val) := by
  have hsz : (Table.mk (t2.buckets.set (hashKey key t2.size) newChain) cnt
      t2.keyType nxt).size = t2.size := by
    show (t2.buckets.set _ _).length = t2.buckets.length
    rw [List.length_set]
  unfold mht_get_without_lock_generic lookupEntry
  rw [if_neg (by simp [ht2])]
  rw [hsz, hh]
  rw [show (Table.mk (t2.buckets.set (hashKey key t2.size) newChain) cnt
    t2.keyType nxt).buckets = t2.buckets.set (hashKey key t2.size) newChain from rfl]
  rw [getD_set_self _ _ _ (hashKey_lt key t2.size hpos)]

/-- Lookup in a table whose bucket for key was replaced, queried with a key
of a different bucket: the scan is unchanged. -/
theorem get_mk_set_other (t2 : Table) (key k2 : KeyRef) (newChain : List Entry)
    (cnt nxt : Nat) (ht2 : keyTypeOf k2 = t2.keyType)
    (hh : hashKey k2 t2.size ≠ hashKey key t2.size) :
    mht_get_without_lock_generic
      (Table.mk (t2.buckets.set (hashKey key t2.size) newChain) cnt t2.keyType nxt) k2 =
      (lookupEntry t2 k2).map (·.val) := by
  have hsz : (Table.mk (t2.buckets.set (hashKey key t2.size) newChain) cnt
      t2.keyType nxt).size = t2.size := by
    show (t2.buckets.set _ _).length = t2.buckets.length
    rw [List.length_set]
  unfold mht_get_without_lock_generic lookupEntry
  rw [if_neg (by simp [ht2])]
  rw [hsz]
  rw [show (Table.mk (t2.buckets.set (hashKey key t2.size) newChain) cnt
    t2.keyType nxt).buckets = t2.buckets.set (hashKey key t2.size) newChain from rfl]
  rw [getD_set_other _ _ _ _ (Ne.symm hh)]

theorem get_eq_lookup (t : Table) (k : KeyRef) (ht : keyTypeOf k = t.keyType) :
    mht_get_without_lock_generic t k = (lookupEntry t k).map (·.val) := by
  unfold mht_get_without_lock_generic
  rw [if_neg (by simp [ht])]

/-- Full description of a successful delete: the call returns true, frees
exactly the stored value pointer and the node (never the duplicated key
buffer), decrements count, removes precisely the one matching entry, leaves
every other key mapped as before, and preserves well-formedness. -/
theorem delete_found (t : Table) (key : KeyRef) (e : Entry)
    (hw : WFb t = true) (ht : keyTypeOf key = t.keyType)
    (hfind : lookupEntry t key = some e) :
    (mht_delete_without_lock_generic t key).ok = true ∧
    (mht_delete_without_lock_generic t key).freed = [valId e.val, e.node] ∧
    (mht_delete_without_lock_generic t key).t.count = t.count - 1 ∧
    mht_get_without_lock_generic (mht_delete_without_lock_generic t key).t key = none ∧
    (flattenT t).Perm (e :: flattenT (mht_delete_without_lock_generic t key).t) ∧
    (∀ k2, eqKey k2 key = false → keyTypeOf k2 = t.keyType →
      mht_get_without_lock_generic (mht_delete_without_lock_generic t key).t k2 =
        mht_get_without_lock_generic t k2) ∧
    WFb (mht_delete_without_lock_generic t key).t = true := by
  have hpos := WFb_size_pos t hw
  have hidx : hashKey key t.size < t.buckets.length := hashKey_lt key t.size hpos
  have hfind2 : findInChain key (t.buckets.getD (hashKey key t.size) []) = some e := hfind
  have hres : mht_delete_without_lock_generic t key =
      ⟨true,
        Table.mk
          (t.buckets.set (hashKey key t.size)
            (removeFromChain key (t.buckets.getD (hashKey key t.size) [])))
          (t.count - 1) t.keyType t.next,
        [valId e.val, e.node]⟩ := by
    unfold mht_delete_without_lock_generic
    rw [if_neg (by simp [ht])]
    simp only [hfind2]
  have hT : (mht_delete_without_lock_generic t key).t =
      Table.mk
        (t.buckets.set (hashKey key t.size)
          (removeFromChain key (t.buckets.getD (hashKey key t.size) [])))
        (t.count - 1) t.keyType t.next := by
    rw [hres]
  have hnd : noDupKeys (t.buckets.getD (hashKey key t.size) []) = true :=
    WFb_noDup t hw _ (getD_mem _ _ hidx)
  refine ⟨by rw [hres], by rw [hres], by rw [hres], ?_, ?_, ?_, ?_⟩
  · rw [hT, get_mk_set_same t key key _ _ _ ht hpos rfl,
      find_remove_self key _ hnd]
    rfl
  · rw [hT]
    exact flatten_set_remove t.buckets _ key e hidx hfind2
  · intro k2 hk2 ht2
    rw [hT]
    by_cases hh : hashKey k2 t.size = hashKey key t.size
    · rw [get_mk_set_same t key k2 _ _ _ ht2 hpos hh,
        find_remove_other key k2 _ hk2, get_eq_lookup t k2 ht2]
      unfold lookupEntry
      rw [hh]
    · rw [get_mk_set_other t key k2 _ _ _ ht2 hh, get_eq_lookup t k2 ht2]
  · rw [hT]
    refine WFb_set_bucket t _ key _ hw rfl ?_ ?_
    · intro x hx
      have hxm : x ∈ t.buckets.getD (hashKey key t.size) [] :=
        (removeFromChain_sublist key _).subset hx
      exact WFb_goodBP t hw _ hidx x hxm
    · exact noDupKeys_sublist (removeFromChain_sublist key _) hnd

/-! Correctness of the power-of-two helpers of the library header. -/

theorem testBit_of_between (x L : Nat) (h1 : 2 ^ L ≤ x) (h2 : x < 2 ^ (L + 1)) :
    x.testBit L = true := by
  rw [Nat.testBit_to_div_mod]
  have hdiv : x / 2 ^ L = 1 := by
    have hp : 0 < 2 ^ L := Nat.pos_pow_of_pos L (by norm_num)
    have hlow : 1 ≤ x / 2 ^ L := (Nat.le_div_iff_mul_le hp).mpr (by omega)
    have hhigh : x / 2 ^ L < 2 := by
      rw [Nat.div_lt_iff_lt_mul hp]
      rw [Nat.pow_succ] at h2
      omega
    omega
  simp [hdiv]

theorem testBit_log2_self (m : Nat) (hm : m ≠ 0) :
    m.testBit (Nat.log2 m) = true := by
  exact testBit_of_between m (Nat.log2 m) (Nat.log2_self_le hm) Nat.lt_log2_self

/-- ht_is_power_of_two answers true exactly on the powers of two: the
nonzero check plus the classic n AND (n-1) == 0 test. -/
theorem ht_is_power_of_two_iff (n : Nat) :
    ht_is_power_of_two n = true ↔ (n ≠ 0 ∧ n = 2 ^ Nat.log2 n) := by
  unfold ht_is_power_of_two
  simp only [Bool.and_eq_true, bne_iff_ne, ne_eq, beq_iff_eq]
  constructor
  · rintro ⟨hnz, hand⟩
    refine ⟨hnz, ?_⟩
    set L := Nat.log2 n with hL
    have hlow : 2 ^ L ≤ n := Nat.log2_self_le hnz
    have hhigh : n < 2 ^ (L + 1) := Nat.lt_log2_self
    by_contra hne
    have hr : 2 ^ L < n := by omega
    have hbn : n.testBit L = true := testBit_of_between n L hlow hhigh
    have hbn1 : (n - 1).testBit L = true :=
      testBit_of_between (n - 1) L (by omega) (by omega)
    have : (n &&& (n - 1)).testBit L = true := by
      rw [Nat.testBit_land, hbn, hbn1]
      rfl
    rw [hand] at this
    rw [Nat.zero_testBit] at this
    cases this
  · rintro ⟨hnz, hpow⟩
    refine ⟨hnz, ?_⟩
    apply Nat.eq_of_testBit_eq
    intro i
    rw [Nat.testBit_land, Nat.zero_testBit]
    by_cases hi : i = Nat.log2 n
    · subst hi
      rw [show n - 1 = 2 ^ Nat.log2 n - 1 by omega, Nat.testBit_two_pow_sub_one]
      simp
    · rw [hpow, Nat.testBit_two_pow_of_ne (fun h => hi h.symm)]
      rfl

/-- One or-shift step of the smear: coverage of the next s bit positions
doubles. -/
theorem cover_step (x m s : Nat)
    (hx : ∀ i, x.testBit i = true ↔ ∃ d, d < s ∧ m.testBit (i + d) = true) :
    ∀ i, (x ||| (x >>> s)).testBit i = true ↔
      ∃ d, d < 2 * s ∧ m.testBit (i + d) = true := by
  intro i
  rw [Nat.testBit_lor, Nat.testBit_shiftRight, Bool.or_eq_true]
  constructor
  · intro h
    rcases h with h | h
    · rcases (hx i).mp h with ⟨d, hd, hb⟩
      exact ⟨d, by omega, hb⟩
    · rcases (hx (s + i)).mp h with ⟨d, hd, hb⟩
      refine ⟨s + d, by omega, ?_⟩
      rw [show i + (s + d) = s + i + d by omega]
      exact hb
  · rintro ⟨d, hd, hb⟩
    by_cases hds : d < s
    · exact Or.inl ((hx i).mpr ⟨d, hds, hb⟩)
    · refine Or.inr ((hx (s + i)).mpr ⟨d - s, by omega, ?_⟩)
      rw [show s + i + (d - s) = i + d by omega]
      exact hb

theorem smear64_cover (m : Nat) :
    ∀ i, (smear64 m).testBit i = true ↔ ∃ d, d < 64 ∧ m.testBit (i + d) = true := by
  have h0 : ∀ i, m.testBit i = true ↔ ∃ d, d < 1 ∧ m.testBit (i + d) = true := by
    intro i
    constructor
    · intro h
      exact ⟨0, by omega, by simpa using h⟩
    · rintro ⟨d, hd, hb⟩
      have hd0 : d = 0 := by omega
      subst hd0
      simpa using hb
  have h1 := cover_step m m 1 h0
  have h2 := cover_step _ m 2 h1
  have h3 := cover_step _ m 4 h2
  have h4 := cover_step _ m 8 h3
  have h5 := cover_step _ m 16 h4
  have h6 := cover_step _ m 32 h5
  intro i
  exact h6 i

theorem smear64_eq (m : Nat) (hm : 1 ≤ m) (hlt : m < 2 ^ 63) :
    smear64 m = 2 ^ (Nat.log2 m + 1) - 1 := by
  set L := Nat.log2 m with hL
  have hlow : 2 ^ L ≤ m := Nat.log2_self_le (by omega)
  have hhigh : m < 2 ^ (L + 1) := Nat.lt_log2_self
  have hL63 : L < 63 := by
    by_contra hcon
    push_neg at hcon
    have h2 : (2 : Nat) ^ 63 ≤ 2 ^ L := Nat.pow_le_pow_right (by norm_num) hcon
    omega
  apply Nat.eq_of_testBit_eq
  intro i
  rw [Nat.testBit_two_pow_sub_one]
  rcases Nat.lt_or_ge i (L + 1) with hi | hi
  · have hset : (smear64 m).testBit i = true :=
      (smear64_cover m i).mpr ⟨L - i, by omega,
        by rw [show i + (L - i) = L by omega]; exact testBit_log2_self m (by omega)⟩
    rw [hset]
    simp [hi]
  · have hclear : (smear64 m).testBit i = false := by
      cases hbit : (smear64 m).testBit i with
      | false => rfl
      | true =>
        exfalso
        rcases (smear64_cover m i).mp hbit with ⟨d, hd, hb⟩
        have : m < 2 ^ (i + d) := by
          calc m < 2 ^ (L + 1) := hhigh
            _ ≤ 2 ^ (i + d) := Nat.pow_le_pow_right (by norm_num) (by omega)
        rw [Nat.testBit_lt_two_pow this] at hb
        cases hb
    rw [hclear]
    simp
    omega

/-- ht_next_power_of_two returns the least power of two at or above its
argument, for every argument in the range where such a power exists in
size_t. -/
theorem ht_next_power_of_two_spec (n : Nat) (h1 : 1 ≤ n) (h2 : n ≤ 2 ^ 63) :
    (∃ k, ht_next_power_of_two n = 2 ^ k) ∧
    n ≤ ht_next_power_of_two n ∧
    ∀ j, n ≤ 2 ^ j → ht_next_power_of_two n ≤ 2 ^ j := by
  have hguard : ((SIZE_MAX >>> 1) + 1 : Nat) = 2 ^ 63 := by
    rw [Nat.shiftRight_eq_div_pow]
    norm_num [SIZE_MAX]
  unfold ht_next_power_of_two
  rw [if_neg (by simp; omega), if_neg (by rw [hguard]; simp; omega)]
  rcases Nat.eq_or_lt_of_le h1 with hn1 | hn2
  · rw [← hn1]
    refine ⟨⟨0, by decide⟩, by decide, ?_⟩
    intro j _
    have : (1 : Nat) ≤ 2 ^ j := Nat.one_le_two_pow
    have hs : smear64 (1 - 1) + 1 = 1 := by decide
    omega
  · set m := n - 1 with hm
    have hm1 : 1 ≤ m := by omega
    have hmlt : m < 2 ^ 63 := by omega
    rw [smear64_eq m hm1 hmlt]
    set L := Nat.log2 m with hL
    have hpos : 1 ≤ 2 ^ (L + 1) := Nat.one_le_two_pow
    have hlow : 2 ^ L ≤ m := Nat.log2_self_le (by omega)
    have hhigh : m < 2 ^ (L + 1) := Nat.lt_log2_self
    refine ⟨⟨L + 1, by omega⟩, by omega, ?_⟩
    intro j hj
    have hLj : L < j := by
      by_contra hcon
      push_neg at hcon
      have : (2 : Nat) ^ j ≤ 2 ^ L := Nat.pow_le_pow_right (by norm_num) hcon
      omega
    have : (2 : Nat) ^ (L + 1) ≤ 2 ^ j := Nat.pow_le_pow_right (by norm_num) hLj
    omega

/-! Bridging lemmas used by the claim theorems. -/

theorem mht_rehash_allocfail (t : Table) : mht_rehash false t = t := by
  unfold mht_rehash
  split
  · rfl
  split
  · rfl
  split
  · rfl
  · simp at *

theorem set_generic_eq_inChain (plan : Nat → Bool) (t : Table) (key : KeyRef)
    (vptr : Nat) (vbytes : List Nat) (vsize : Nat)
    (hv : vptr ≠ 0) (ht : keyTypeOf key = t.keyType) :
    mht_set_generic plan t key vptr vbytes vsize =
      setInChain plan (setStage plan t) key vptr vbytes vsize := by
  unfold mht_set_generic
  rw [if_neg (by simpa using hv), if_neg (by simp [ht])]

theorem setInChain_ok (plan : Nat → Bool) (t2 : Table) (key : KeyRef)
    (vptr : Nat) (vbytes : List Nat) (vsize : Nat)
    (h1 : plan 1 = true) (h2 : plan 2 = true) (h3 : plan 3 = true) :
    (setInChain plan t2 key vptr vbytes vsize).ok = true := by
  unfold setInChain
  cases hfind : findInChain key (t2.buckets.getD (hashKey key t2.size) []) with
  | some e =>
    unfold setHit
    by_cases hs : (vsize != 0) = true
    · simp [hs, h1]
    · simp [hs]
  | none =>
    unfold setMiss
    cases key with
    | uint k =>
      by_cases hs : (vsize != 0) = true
      · simp [h1, hs, h3]
      · simp [h1, hs]
    | str bytes =>
      by_cases hs : (vsize != 0) = true
      · simp [h1, h2, hs, h3]
      · simp [h1, h2, hs]

theorem setInChain_size (plan : Nat → Bool) (t2 : Table) (key : KeyRef)
    (vptr : Nat) (vbytes : List Nat) (vsize : Nat) :
    (setInChain plan t2 key vptr vbytes vsize).t.size = t2.size := by
  unfold setInChain
  cases hfind : findInChain key (t2.buckets.getD (hashKey key t2.size) []) with
  | some e =>
    unfold setHit
    by_cases hs : (vsize != 0) = true
    · by_cases hp : plan 1 = true
      · simp [hs, hp, Table.size]
      · simp [hs, hp]
    · simp [hs, Table.size]
  | none =>
    unfold setMiss
    by_cases h1 : (!plan 1) = true
    · simp [h1]
    · cases key with
      | uint k =>
        by_cases hs : (vsize != 0) = true
        · by_cases hp : plan 3 = true
          · simp [h1, hs, hp, Table.size]
          · simp [h1, hs, hp]
        · simp [h1, hs, Table.size]
      | str bytes =>
        by_cases h2 : (!plan 2) = true
        · simp [h1, h2]
        · by_cases hs : (vsize != 0) = true
          · by_cases hp : plan 3 = true
            · simp [h1, h2, hs, hp, Table.size]
            · simp [h1, h2, hs, hp]
          · simp [h1, h2, hs, Table.size]

theorem setInChain_count_or (plan : Nat → Bool) (t2 : Table) (key : KeyRef)
    (vptr : Nat) (vbytes : List Nat) (vsize : Nat) :
    (setInChain plan t2 key vptr vbytes vsize).t.count = t2.count ∨
    (setInChain plan t2 key vptr vbytes vsize).t.count = t2.count + 1 := by
  unfold setInChain
  cases hfind : findInChain key (t2.buckets.getD (hashKey key t2.size) []) with
  | some e =>
    unfold setHit
    by_cases hs : (vsize != 0) = true
    · by_cases hp : plan 1 = true
      · simp [hs, hp]
      · simp [hs, hp]
    · simp [hs]
  | none =>
    unfold setMiss
    by_cases h1 : (!plan 1) = true
    · simp [h1]
    · cases key with
      | uint k =>
        by_cases hs : (vsize != 0) = true
        · by_cases hp : plan 3 = true
          · simp [h1, hs, hp]
          · simp [h1, hs, hp]
        · simp [h1, hs]
      | str bytes =>
        by_cases h2 : (!plan 2) = true
        · simp [h1, h2]
        · by_cases hs : (vsize != 0) = true
          · by_cases hp : plan 3 = true
            · simp [h1, h2, hs, hp]
            · simp [h1, h2, hs, hp]
          · simp [h1, h2, hs]

theorem pow2_iff_exists (n : Nat) :
    ht_is_power_of_two n = true ↔ ∃ k, n = 2 ^ k := by
  rw [ht_is_power_of_two_iff]
  constructor
  · rintro ⟨_, hpow⟩
    exact ⟨Nat.log2 n, hpow⟩
  · rintro ⟨k, hk⟩
    subst hk
    have hpos : (0 : Nat) < 2 ^ k := Nat.pos_pow_of_pos k (by norm_num)
    refine ⟨by omega, ?_⟩
    have hlog : Nat.log2 (2 ^ k) = k := by
      have h1 : 2 ^ Nat.log2 (2 ^ k) ≤ 2 ^ k := Nat.log2_self_le (by omega)
      have h2 : (2 : Nat) ^ k < 2 ^ (Nat.log2 (2 ^ k) + 1) := Nat.lt_log2_self
      have h3 : Nat.log2 (2 ^ k) ≤ k := by
        by_contra hcon
        push_neg at hcon
        have := Nat.pow_le_pow_right (show 1 ≤ 2 by norm_num) hcon
        omega
      have h4 : k ≤ Nat.log2 (2 ^ k) := by
        by_contra hcon
        push_neg at hcon
        have : (2 : Nat) ^ (Nat.log2 (2 ^ k) + 1) ≤ 2 ^ k :=
          Nat.pow_le_pow_right (by norm_num) (by omega)
        omega
      omega
    rw [hlog]

theorem pow2_double (n : Nat) (h : ht_is_power_of_two n = true) :
    ht_is_power_of_two (2 * n) = true := by
  rw [pow2_iff_exists] at h ⊢
  rcases h with ⟨k, hk⟩
  exact ⟨k + 1, by rw [hk, Nat.pow_succ]; omega⟩

theorem mht_rehash_size_double (t : Table) (hcap : t.size ≤ 2 ^ 59) :
    (mht_rehash true t).size = 2 * t.size := by
  unfold mht_rehash
  rw [if_neg (by norm_num [SIZE_MAX]; omega), if_neg (by norm_num [SIZE_MAX]; omega)]
  simp only [Bool.not_true, Bool.false_eq_true, if_neg, not_false_iff]
  show ((flattenT t).foldl relink (List.replicate (t.size * 2) [])).length = 2 * t.size
  rw [foldl_relink_length, List.length_replicate]
  omega

/-! Claim theorems. -/

/-- C4: the claim states that every public operation releases the global
lock before returning on every success and failure path.  The code violates
this: _mht_all_get returns with the lock still held both when out_count is
NULL and when count exceeds the snapshot-array size guard, while (for
contrast) _mht_uint_set_raw is balanced on both of its paths.  This theorem
evaluates the lock traces of the code at those failing inputs. -/
theorem C4_all_get_lock_leak :
    allGetLockTrace ⟨true, false, false, false⟩ = [LockEv.acq] ∧
    balancedB (allGetLockTrace ⟨true, false, false, false⟩) = false ∧
    allGetLockTrace ⟨false, false, true, false⟩ = [LockEv.acq] ∧
    balancedB (allGetLockTrace ⟨false, false, true, false⟩) = false ∧
    balancedB (uintSetRawLockTrace true) = true ∧
    balancedB (uintSetRawLockTrace false) = true := by
  decide

/-- Modelled from the claim wording of C8: a string key is invalid exactly
when its buffer reference is absent, its length is zero, or its content
bounded by the declared length contains no non-terminator bytes before that
length. -/
def claimC8Invalid (k : str_keyt) : Bool :=
  match k.ptr with
  | none => true
  | some bytes => k.len == 0 || (bytes.take k.len).all (fun b => b == 0)

/-- C8 counterexample: the two-byte key 61 00 with declared length 2 has a
non-terminator byte before the declared length, so the claim judges it
valid, but mht_str_key_is_valid rejects it because a terminator occurs
before the declared length. -/
theorem C8_counterexample :
    ¬ (mht_str_key_is_valid ⟨some [97, 0], 2⟩ = !claimC8Invalid ⟨some [97, 0], 2⟩) ∧
    mht_str_key_is_valid ⟨some [97, 0], 2⟩ = false ∧
    claimC8Invalid ⟨some [97, 0], 2⟩ = false := by
  decide

theorem mutils_strnlen_le (bytes : List Nat) (len : Nat) :
    mutils_strnlen bytes len ≤ len := by
  unfold mutils_strnlen
  calc ((bytes.take len).takeWhile (fun b => b != 0)).length
      ≤ (bytes.take len).length := (List.takeWhile_prefix _).sublist.length_le
    _ ≤ len := by
        rw [List.length_take]
        omega

/-- C8 (amended): validation judges a string key invalid exactly when its
buffer reference is absent, its declared length is zero, or a terminator
byte occurs among the first len bytes (the bounded string length falls
short of the declared length); every other key, i.e. a full run of len
non-terminator bytes, is judged valid. -/
theorem C8_amended (bytes : List Nat) (len : Nat) :
    mht_str_key_is_valid ⟨none, len⟩ = false ∧
    (mht_str_key_is_valid ⟨some bytes, len⟩ = true ↔
      (len ≠ 0 ∧ mutils_strnlen bytes len = len)) ∧
    (mutils_strnlen bytes len = len ↔
      (len ≤ bytes.length ∧ ∀ b ∈ bytes.take len, b ≠ 0)) := by
  refine ⟨rfl, ?_, ?_⟩
  · simp only [mht_str_key_is_valid]
    constructor
    · intro h
      by_cases hh : (bytes.headD 0 == 0) = true
      · rw [if_pos hh] at h
        cases h
      · rw [if_neg hh] at h
        by_cases hl : (len == 0) = true
        · rw [if_pos hl] at h
          cases h
        · rw [if_neg hl] at h
          by_cases hs : mutils_strnlen bytes len < len
          · rw [if_pos hs] at h
            cases h
          · have hle := mutils_strnlen_le bytes len
            exact ⟨by simpa using hl, by omega⟩
    · rintro ⟨hl, hs⟩
      have hh : (bytes.headD 0 == 0) = false := by
        rw [beq_eq_false_iff_ne]
        intro ha0
        have hzero : mutils_strnlen bytes len = 0 := by
          cases bytes with
          | nil => simp [mutils_strnlen]
          | cons a r =>
            simp only [List.headD_cons] at ha0
            subst ha0
            unfold mutils_strnlen
            cases len with
            | zero => simp
            | succ l2 => simp [List.take_succ_cons, List.takeWhile]
        omega
      rw [if_neg (by simpa using hh), if_neg (by simpa using hl), if_neg (by omega)]
  · unfold mutils_strnlen
    constructor
    · intro h
      have h1 : ((bytes.take len).takeWhile (fun b => b != 0)).length ≤
          (bytes.take len).length := (List.takeWhile_prefix _).sublist.length_le
      have h2 : (bytes.take len).length = min len bytes.length := List.length_take ..
      have heq : (bytes.take len).takeWhile (fun b => b != 0) = bytes.take len :=
        (List.takeWhile_prefix _).eq_of_length (by omega)
      rw [List.takeWhile_eq_self_iff] at heq
      refine ⟨by omega, ?_⟩
      intro b hb
      have := heq b hb
      simpa using this
    · rintro ⟨hlen, hall⟩
      have heq : (bytes.take len).takeWhile (fun b => b != 0) = bytes.take len :=
        List.takeWhile_eq_self_iff.mpr (fun b hb => by simpa using hall b hb)
      rw [heq, List.length_take]
      omega

/-- C9 counterexample: when every allocation attempt fails, the registry
bootstrap makes its MHT_ENTRIES_TRIAL = 4 attempts all with the same
requested size MHT_ENTRIES_INITIAL_SIZE = 256 and then terminates the
process; the sizes do not double between retries as the claim states. -/
theorem C9_counterexample :
    (initTrace (fun _ => false)).1 = [256, 256, 256, 256] ∧
    (initTrace (fun _ => false)).2 = false ∧
    sizesDoubleB (initTrace (fun _ => false)).1 = false ∧
    (initTrace (fun _ => false)).1.length = MHT_ENTRIES_TRIAL := by
  decide

/-- C9 (amended): on first-ever table creation the library lazily bootstraps
the Instance Registry with a small bounded number of retries, namely at most
MHT_ENTRIES_TRIAL = 4 attempts, every one requesting the same size
MHT_ENTRIES_INITIAL_SIZE = 256 (no size doubling between retries), stopping
at the first success; the process terminates exactly when all four attempts
fail. -/
theorem C9_amended (b0 b1 b2 b3 : Bool) :
    (initTrace (fun i => if i = 0 then b0 else if i = 1 then b1
      else if i = 2 then b2 else b3)).1.length ≤ MHT_ENTRIES_TRIAL ∧
    (∀ x ∈ (initTrace (fun i => if i = 0 then b0 else if i = 1 then b1
      else if i = 2 then b2 else b3)).1, x = MHT_ENTRIES_INITIAL_SIZE) ∧
    ((initTrace (fun i => if i = 0 then b0 else if i = 1 then b1
      else if i = 2 then b2 else b3)).2 = false ↔
      (b0 || b1 || b2 || b3) = false) := by
  cases b0 <;> cases b1 <;> cases b2 <;> cases b3 <;> decide

/-- C7: creation with requested size 0 reports the EINVAL usage error and
yields no handle; whenever creation succeeds, a non-power-of-two request
from the range where a next power of two exists in size_t is rounded up to
exactly the least power of two at or above it (requested 10 yields 16), and
a power-of-two request is kept as-is.  The ht_is_power_of_two test is also
shown to recognize exactly the powers of two. -/
theorem C7_create_size (s : Nat) (kt : KeyType) (p1 p2 : Bool) (t : Table)
    (h1 : 1 ≤ s) (h2 : s ≤ 2 ^ 63)
    (hok : mht_create_without_register_generic p1 p2 s kt = .ok t) :
    mht_create_without_register_generic p1 p2 0 kt =
      Except.error CreateErr.invalidSize ∧
    (ht_is_power_of_two s = true ↔ ∃ k, s = 2 ^ k) ∧
    (ht_is_power_of_two s = false →
      t.size = ht_next_power_of_two s ∧
      (∃ k, t.size = 2 ^ k) ∧ s ≤ t.size ∧ ∀ j, s ≤ 2 ^ j → t.size ≤ 2 ^ j) ∧
    (ht_is_power_of_two s = true → t.size = s) := by
  have hts : t.size =
      (if ht_is_power_of_two s = true then s else ht_next_power_of_two s) := by
    unfold mht_create_without_register_generic at hok
    rw [if_neg (by simp; omega)] at hok
    by_cases hpow : ht_is_power_of_two s = true
    · rw [if_pos hpow]
      simp only [hpow, if_pos] at hok
      by_cases hg : s > SIZE_MAX / 8
      · rw [if_pos hg] at hok
        cases hok
      · rw [if_neg hg] at hok
        cases p1 with
        | false => simp at hok
        | true =>
          cases p2 with
          | false => simp at hok
          | true =>
            simp only [Bool.not_true, Bool.false_eq_true, if_neg, not_false_iff,
              Except.ok.injEq] at hok
            rw [← hok]
            simp [Table.size]
    · rw [if_neg hpow]
      have hpow2 : ht_is_power_of_two s = false := by
        simpa using hpow
      simp only [hpow2, Bool.false_eq_true, if_neg, not_false_iff] at hok
      by_cases hg : ht_next_power_of_two s > SIZE_MAX / 8
      · rw [if_pos hg] at hok
        cases hok
      · rw [if_neg hg] at hok
        cases p1 with
        | false => simp at hok
        | true =>
          cases p2 with
          | false => simp at hok
          | true =>
            simp only [Bool.not_true, Bool.false_eq_true, if_neg, not_false_iff,
              Except.ok.injEq] at hok
            rw [← hok]
            simp [Table.size]
  refine ⟨rfl, pow2_iff_exists s, ?_, ?_⟩
  · intro hpow
    have hsz : t.size = ht_next_power_of_two s := by
      rw [hts, if_neg (by simp [hpow])]
    rcases ht_next_power_of_two_spec s h1 h2 with ⟨⟨k, hk⟩, hle, hleast⟩
    exact ⟨hsz, ⟨k, by rw [hsz, hk]⟩, by rw [hsz]; exact hle,
      fun j hj => by rw [hsz]; exact hleast j hj⟩
  · intro hpow
    rw [hts, if_pos hpow]

/-- The table the creation call of the C7 witness produces. -/
def sampleTable16 : Table :=
  { buckets := List.replicate 16 [], count := 0, keyType := KeyType.uint, next := 1 }

/-- Witness for C7 at the concrete request 10: creation succeeds with
bucket count 16, the next power of two. -/
theorem C7_create_size_witness :
    ((1 : Nat) ≤ 10 ∧ (10 : Nat) ≤ 2 ^ 63 ∧
      mht_create_without_register_generic true true 10 KeyType.uint =
        Except.ok sampleTable16) ∧
    (mht_create_without_register_generic true true 0 KeyType.uint =
        Except.error CreateErr.invalidSize ∧
      (ht_is_power_of_two 10 = true ↔ ∃ k, (10 : Nat) = 2 ^ k) ∧
      (ht_is_power_of_two 10 = false →
        sampleTable16.size = ht_next_power_of_two 10 ∧
        (∃ k, sampleTable16.size = 2 ^ k) ∧
        (10 : Nat) ≤ sampleTable16.size ∧
        ∀ j, (10 : Nat) ≤ 2 ^ j → sampleTable16.size ≤ 2 ^ j) ∧
      (ht_is_power_of_two 10 = true → sampleTable16.size = 10)) :=
  ⟨⟨by decide, by decide, by rfl⟩,
    C7_create_size 10 KeyType.uint true true sampleTable16
      (by decide) (by decide) (by rfl)⟩

/-- The table created by a request of size 1, used by several concrete
evaluations. -/
def sampleTable1 : Table :=
  { buckets := [[]], count := 0, keyType := KeyType.uint, next := 1 }

/-- C2 counterexample: on a freshly created table of bucket count 1, the
first insert succeeds with every allocation succeeding, yet afterwards
count / size = 1 > 0.75: the table does not double before the threshold
would be exceeded, because mht_set_generic only rehashes when the load
already exceeds 0.75 before the insert. -/
theorem C2_counterexample :
    mht_create_without_register_generic true true 1 KeyType.uint =
      Except.ok sampleTable1 ∧
    (mht_uint_set_without_lock planT sampleTable1 0 1 [7] 1).ok = true ∧
    ¬ (4 * (mht_uint_set_without_lock planT sampleTable1 0 1 [7] 1).t.count ≤
        3 * (mht_uint_set_without_lock planT sampleTable1 0 1 [7] 1).t.size) := by
  refine ⟨by rfl, by decide, by decide⟩

/-- C2 (amended): the bucket count is always a power of two and only ever
grows by doubling, and when the rehash allocation succeeds (and the doubled
array stays within the size_t guards, size at most 2^59), every successful
insert leaves (count - 1) / size at or below 0.75: the load can overshoot
the threshold by exactly the one entry just inserted, because the rehash
runs before the insert and only when the load already exceeds 0.75. -/
theorem C2_amended (plan : Nat → Bool) (t : Table) (key : KeyRef)
    (vptr : Nat) (vbytes : List Nat) (vsize : Nat)
    (hpow : ht_is_power_of_two t.size = true)
    (hinv : 4 * t.count ≤ 3 * t.size + 4)
    (hcap : t.size ≤ 2 ^ 59) :
    ((mht_set_generic plan t key vptr vbytes vsize).t.size = t.size ∨
      (mht_set_generic plan t key vptr vbytes vsize).t.size = 2 * t.size) ∧
    t.size ≤ (mht_set_generic plan t key vptr vbytes vsize).t.size ∧
    ht_is_power_of_two (mht_set_generic plan t key vptr vbytes vsize).t.size = true ∧
    (plan 0 = true → (mht_set_generic plan t key vptr vbytes vsize).ok = true →
      4 * ((mht_set_generic plan t key vptr vbytes vsize).t.count - 1) ≤
        3 * (mht_set_generic plan t key vptr vbytes vsize).t.size) := by
  have hsz : t.size ≠ 0 := by
    rcases (pow2_iff_exists t.size).mp hpow with ⟨k, hk⟩
    have : (0 : Nat) < 2 ^ k := Nat.pos_pow_of_pos k (by norm_num)
    omega
  by_cases hv : vptr = 0
  · have hres : mht_set_generic plan t key vptr vbytes vsize = ⟨false, t, []⟩ := by
      unfold mht_set_generic
      rw [if_pos (by simpa using hv)]
    rw [hres]
    refine ⟨Or.inl rfl, Nat.le_refl _, hpow, ?_⟩
    intro _ hok
    cases hok
  · by_cases htm : keyTypeOf key = t.keyType
    · rw [set_generic_eq_inChain plan t key vptr vbytes vsize hv htm]
      have hsic := setInChain_size plan (setStage plan t) key vptr vbytes vsize
      have hcount := setInChain_count_or plan (setStage plan t) key vptr vbytes vsize
      have hscount := setStage_count plan t
      by_cases htrig : 4 * t.count > 3 * t.size
      · by_cases hpl : plan 0 = true
        · have hstage : setStage plan t = mht_rehash true t := by
            unfold setStage
            rw [if_pos htrig, hpl]
          have hdub : (setStage plan t).size = 2 * t.size := by
            rw [hstage]
            exact mht_rehash_size_double t hcap
          refine ⟨Or.inr (by omega), by omega, ?_, ?_⟩
          · rw [hsic, hdub]
            exact pow2_double _ hpow
          · intro _ _
            omega
        · have hstage : setStage plan t = mht_rehash false t := by
            unfold setStage
            rw [if_pos htrig]
            have : plan 0 = false := by simpa using hpl
            rw [this]
          have hid : (setStage plan t).size = t.size := by
            rw [hstage, mht_rehash_allocfail]
          refine ⟨Or.inl (by omega), by omega, by rw [hsic, hid]; exact hpow, ?_⟩
          intro hpl2 _
          rw [hpl2] at hpl
          cases hpl rfl
      · have hstage : setStage plan t = t := by
          unfold setStage
          rw [if_neg htrig]
        refine ⟨Or.inl (by rw [hsic, hstage]), by rw [hsic, hstage],
          by rw [hsic, hstage]; exact hpow, ?_⟩
        intro _ _
        rw [hstage] at hcount
        rw [hsic, hstage]
        omega
    · have hres : mht_set_generic plan t key vptr vbytes vsize = ⟨false, t, []⟩ := by
        unfold mht_set_generic
        rw [if_neg (by simpa using hv), if_pos (by simpa using htm)]
      rw [hres]
      refine ⟨Or.inl rfl, Nat.le_refl _, hpow, ?_⟩
      intro _ hok
      cases hok

/-- The size-1 sample table after one successful insert: one entry in one
bucket, load factor 1. -/
def sampleTable1a : Table :=
  (mht_uint_set_without_lock planT sampleTable1 0 1 [7] 1).t

/-- Witness for C2 (amended): a second insert into the fully loaded size-1
sample table doubles the bucket count and restores the overshoot bound. -/
theorem C2_amended_witness :
    (ht_is_power_of_two sampleTable1a.size = true ∧
      4 * sampleTable1a.count ≤ 3 * sampleTable1a.size + 4 ∧
      sampleTable1a.size ≤ 2 ^ 59) ∧
    (((mht_set_generic planT sampleTable1a (.uint 1) 1 [8] 1).t.size =
        sampleTable1a.size ∨
      (mht_set_generic planT sampleTable1a (.uint 1) 1 [8] 1).t.size =
        2 * sampleTable1a.size) ∧
    sampleTable1a.size ≤ (mht_set_generic planT sampleTable1a (.uint 1) 1 [8] 1).t.size ∧
    ht_is_power_of_two (mht_set_generic planT sampleTable1a (.uint 1) 1 [8] 1).t.size =
      true ∧
    (planT 0 = true → (mht_set_generic planT sampleTable1a (.uint 1) 1 [8] 1).ok = true →
      4 * ((mht_set_generic planT sampleTable1a (.uint 1) 1 [8] 1).t.count - 1) ≤
        3 * (mht_set_generic planT sampleTable1a (.uint 1) 1 [8] 1).t.size)) :=
  ⟨⟨by decide, by decide, by decide⟩,
    C2_amended planT sampleTable1a (.uint 1) 1 [8] 1
      (by decide) (by decide) (by decide)⟩

/-- The allocation plan of the C5 scenario: the rehash bucket array
allocation (event 0) fails, every later allocation of the call succeeds. -/
def planRehashFail : Nat → Bool := fun i => i != 0

/-- C5: when the doubled bucket array cannot be allocated during a rehash
triggered by an insert, the rehash leaves the table exactly in its
pre-rehash state, and the triggering insert of a new key still proceeds
into the original un-grown table and succeeds, leaving the table over the
load threshold but with the new key retrievable. -/
theorem C5_rehash_alloc_failure (t : Table) (key : KeyRef)
    (vptr : Nat) (vbytes : List Nat) (vsize : Nat)
    (hw : WFb t = true) (ht : keyTypeOf key = t.keyType)
    (hk : keyOKb key = true) (hv : vptr ≠ 0)
    (htrig : 4 * t.count > 3 * t.size)
    (habsent : lookupEntry t key = none) :
    mht_rehash false t = t ∧
    (mht_set_generic planRehashFail t key vptr vbytes vsize).ok = true ∧
    (mht_set_generic planRehashFail t key vptr vbytes vsize).t.size = t.size ∧
    (mht_set_generic planRehashFail t key vptr vbytes vsize).t.count = t.count + 1 ∧
    4 * (mht_set_generic planRehashFail t key vptr vbytes vsize).t.count >
      3 * (mht_set_generic planRehashFail t key vptr vbytes vsize).t.size ∧
    mht_get_without_lock_generic
      (mht_set_generic planRehashFail t key vptr vbytes vsize).t key ≠ none ∧
    WFb (mht_set_generic planRehashFail t key vptr vbytes vsize).t = true := by
  have hpos := WFb_size_pos t hw
  have hstage : setStage planRehashFail t = t := by
    unfold setStage
    rw [if_pos htrig]
    show mht_rehash false t = t
    exact mht_rehash_allocfail t
  have heq : mht_set_generic planRehashFail t key vptr vbytes vsize =
      setInChain planRehashFail t key vptr vbytes vsize := by
    rw [set_generic_eq_inChain planRehashFail t key vptr vbytes vsize hv ht, hstage]
  have hok : (setInChain planRehashFail t key vptr vbytes vsize).ok = true :=
    setInChain_ok planRehashFail t key vptr vbytes vsize rfl rfl rfl
  have hfacts := setInChain_success planRehashFail t key vptr vbytes vsize
    hpos ht hk hok
  rcases hfacts with ⟨hsize, _, hget1, hget0, hnone, _, hwf⟩
  rw [heq]
  refine ⟨mht_rehash_allocfail t, hok, hsize, hnone habsent, ?_, ?_, hwf hw⟩
  · rw [hsize, hnone habsent]
    omega
  · by_cases hs : vsize = 0
    · rw [hget0 hs]
      intro h
      cases h
    · rcases hget1 hs with ⟨hmap, _⟩
      intro h
      rw [h] at hmap
      cases hmap

/-- Witness for C5 on the fully loaded size-1 sample table: the insert of
key 1 with the failing rehash allocation succeeds into the un-grown table. -/
theorem C5_rehash_alloc_failure_witness :
    (WFb sampleTable1a = true ∧ keyTypeOf (.uint 1) = sampleTable1a.keyType ∧
      keyOKb (.uint 1) = true ∧ (1 : Nat) ≠ 0 ∧
      4 * sampleTable1a.count > 3 * sampleTable1a.size ∧
      lookupEntry sampleTable1a (.uint 1) = none) ∧
    (mht_rehash false sampleTable1a = sampleTable1a ∧
    (mht_set_generic planRehashFail sampleTable1a (.uint 1) 1 [9] 1).ok = true ∧
    (mht_set_generic planRehashFail sampleTable1a (.uint 1) 1 [9] 1).t.size =
      sampleTable1a.size ∧
    (mht_set_generic planRehashFail sampleTable1a (.uint 1) 1 [9] 1).t.count =
      sampleTable1a.count + 1 ∧
    4 * (mht_set_generic planRehashFail sampleTable1a (.uint 1) 1 [9] 1).t.count >
      3 * (mht_set_generic planRehashFail sampleTable1a (.uint 1) 1 [9] 1).t.size ∧
    mht_get_without_lock_generic
      (mht_set_generic planRehashFail sampleTable1a (.uint 1) 1 [9] 1).t (.uint 1) ≠
      none ∧
    WFb (mht_set_generic planRehashFail sampleTable1a (.uint 1) 1 [9] 1).t = true) :=
  ⟨⟨by decide, by decide, by decide, by decide, by decide, by decide⟩,
    C5_rehash_alloc_failure sampleTable1a (.uint 1) 1 [9] 1
      (by decide) (by decide) (by decide) (by decide) (by decide) (by decide)⟩

/-- C10: whenever a set call fails, whether on the NULL-value or key-type
guard, the chain-node allocation, the duplicated-key allocation, the
managed-copy allocation of a new entry, or the replacement-buffer
allocation of an overwrite, the table keeps exactly its entries (as a
multiset, so every stored key, value and mode survives), its element count
is unchanged, nothing the table owned is freed (in the overwrite case the
replacement buffer is allocated before the old value would be freed), and
only the bucket array may have grown from the preceding rehash. -/
theorem C10_failed_set_frame (plan : Nat → Bool) (t : Table) (key : KeyRef)
    (vptr : Nat) (vbytes : List Nat) (vsize : Nat)
    (hfail : (mht_set_generic plan t key vptr vbytes vsize).ok = false) :
    (mht_set_generic plan t key vptr vbytes vsize).freed = [] ∧
    (mht_set_generic plan t key vptr vbytes vsize).t.count = t.count ∧
    (flattenT (mht_set_generic plan t key vptr vbytes vsize).t).Perm (flattenT t) ∧
    ((mht_set_generic plan t key vptr vbytes vsize).t.size = t.size ∨
      (mht_set_generic plan t key vptr vbytes vsize).t.size = 2 * t.size) := by
  by_cases hv : vptr = 0
  · have hres : mht_set_generic plan t key vptr vbytes vsize = ⟨false, t, []⟩ := by
      unfold mht_set_generic
      rw [if_pos (by simpa using hv)]
    rw [hres]
    exact ⟨rfl, rfl, List.Perm.refl _, Or.inl rfl⟩
  · by_cases htm : keyTypeOf key = t.keyType
    · have heq := set_generic_eq_inChain plan t key vptr vbytes vsize hv htm
      rw [heq] at hfail ⊢
      rw [setInChain_fail plan (setStage plan t) key vptr vbytes vsize hfail]
      exact ⟨rfl, setStage_count plan t, setStage_perm plan t, setStage_size plan t⟩
    · have hres : mht_set_generic plan t key vptr vbytes vsize = ⟨false, t, []⟩ := by
        unfold mht_set_generic
        rw [if_neg (by simpa using hv), if_pos (by simpa using htm)]
      rw [hres]
      exact ⟨rfl, rfl, List.Perm.refl _, Or.inl rfl⟩

/-- Witness for C10: inserting a fresh key with every allocation failing
fails the call and leaves the one-entry table untouched. -/
theorem C10_failed_set_frame_witness :
    ((mht_set_generic (fun _ => false) sampleTable1a (.uint 1) 1 [9] 1).ok = false) ∧
    ((mht_set_generic (fun _ => false) sampleTable1a (.uint 1) 1 [9] 1).freed = [] ∧
    (mht_set_generic (fun _ => false) sampleTable1a (.uint 1) 1 [9] 1).t.count =
      sampleTable1a.count ∧
    (flattenT (mht_set_generic (fun _ => false) sampleTable1a (.uint 1) 1 [9] 1).t).Perm
      (flattenT sampleTable1a) ∧
    ((mht_set_generic (fun _ => false) sampleTable1a (.uint 1) 1 [9] 1).t.size =
        sampleTable1a.size ∨
      (mht_set_generic (fun _ => false) sampleTable1a (.uint 1) 1 [9] 1).t.size =
        2 * sampleTable1a.size)) :=
  ⟨by decide,
    C10_failed_set_frame (fun _ => false) sampleTable1a (.uint 1) 1 [9] 1 (by decide)⟩

/-- C6: a successful set of a key that is already present overwrites the
stored value in place, afterwards the lookup returns the new value, and
count does not increase; count increments exactly when the set inserts a
key that was absent. -/
theorem C6_overwrite_count (plan : Nat → Bool) (t : Table) (key : KeyRef)
    (vptr : Nat) (vbytes : List Nat) (vsize : Nat)
    (hw : WFb t = true) (ht : keyTypeOf key = t.keyType) (hk : keyOKb key = true)
    (hok : (mht_set_generic plan t key vptr vbytes vsize).ok = true) :
    (mht_get_without_lock_generic t key ≠ none →
      (mht_set_generic plan t key vptr vbytes vsize).t.count = t.count) ∧
    (mht_get_without_lock_generic t key = none →
      (mht_set_generic plan t key vptr vbytes vsize).t.count = t.count + 1) ∧
    (vsize ≠ 0 →
      (mht_get_without_lock_generic
        (mht_set_generic plan t key vptr vbytes vsize).t key).map isManaged =
          some true ∧
      (mht_get_without_lock_generic
        (mht_set_generic plan t key vptr vbytes vsize).t key).bind valBytes =
          some vbytes) ∧
    (vsize = 0 →
      mht_get_without_lock_generic
        (mht_set_generic plan t key vptr vbytes vsize).t key = some (.raw vptr)) := by
  have hv : vptr ≠ 0 := by
    intro hv0
    have hres : mht_set_generic plan t key vptr vbytes vsize = ⟨false, t, []⟩ := by
      unfold mht_set_generic
      rw [if_pos (by simpa using hv0)]
    rw [hres] at hok
    cases hok
  have heq := set_generic_eq_inChain plan t key vptr vbytes vsize hv ht
  rw [heq] at hok ⊢
  have hw2 := setStage_WFb plan t hw
  have hpos2 := setStage_size_pos plan t (WFb_size_pos t hw)
  have ht2 : keyTypeOf key = (setStage plan t).keyType := by
    rw [setStage_keyType]
    exact ht
  have hfacts := setInChain_success plan (setStage plan t) key vptr vbytes vsize
    hpos2 ht2 hk hok
  rcases hfacts with ⟨_, _, hget1, hget0, hnone, hsome, _⟩
  have hlk : lookupEntry (setStage plan t) key = lookupEntry t key :=
    setStage_lookup plan t key hw
  have hgl : mht_get_without_lock_generic t key = (lookupEntry t key).map (·.val) :=
    get_eq_lookup t key ht
  refine ⟨?_, ?_, hget1, hget0⟩
  · intro hpresent
    cases hl : lookupEntry t key with
    | none =>
      rw [hgl, hl] at hpresent
      cases hpresent rfl
    | some e =>
      have := hsome e (by rw [hlk, hl])
      rw [this.1, setStage_count]
  · intro habsent
    rw [hgl] at habsent
    have hl : lookupEntry t key = none := by
      cases hl : lookupEntry t key with
      | none => rfl
      | some e =>
        rw [hl] at habsent
        cases habsent
    rw [hnone (by rw [hlk, hl]), setStage_count]

/-- Witness for C6: overwriting key 0 of the one-entry sample table with a
new two-byte value succeeds, keeps count at 1, and the lookup returns the
new managed copy. -/
theorem C6_overwrite_count_witness :
    (WFb sampleTable1a = true ∧ keyTypeOf (.uint 0) = sampleTable1a.keyType ∧
      keyOKb (.uint 0) = true ∧
      (mht_set_generic planT sampleTable1a (.uint 0) 1 [5, 6] 2).ok = true) ∧
    ((mht_get_without_lock_generic sampleTable1a (.uint 0) ≠ none →
      (mht_set_generic planT sampleTable1a (.uint 0) 1 [5, 6] 2).t.count =
        sampleTable1a.count) ∧
    (mht_get_without_lock_generic sampleTable1a (.uint 0) = none →
      (mht_set_generic planT sampleTable1a (.uint 0) 1 [5, 6] 2).t.count =
        sampleTable1a.count + 1) ∧
    ((2 : Nat) ≠ 0 →
      (mht_get_without_lock_generic
        (mht_set_generic planT sampleTable1a (.uint 0) 1 [5, 6] 2).t (.uint 0)).map
          isManaged = some true ∧
      (mht_get_without_lock_generic
        (mht_set_generic planT sampleTable1a (.uint 0) 1 [5, 6] 2).t (.uint 0)).bind
          valBytes = some [5, 6]) ∧
    ((2 : Nat) = 0 →
      mht_get_without_lock_generic
        (mht_set_generic planT sampleTable1a (.uint 0) 1 [5, 6] 2).t (.uint 0) =
        some (.raw 1))) :=
  ⟨⟨by decide, by decide, by decide, by decide⟩,
    C6_overwrite_count planT sampleTable1a (.uint 0) 1 [5, 6] 2
      (by decide) (by decide) (by decide) (by decide)⟩

/-- A freshly created two-bucket uint-keyed table. -/
def sampleTable2 : Table :=
  { buckets := [[], []], count := 0, keyType := KeyType.uint, next := 1 }

/-- A freshly created two-bucket str-keyed table. -/
def sampleTableS : Table :=
  { buckets := [[], []], count := 0, keyType := KeyType.str, next := 1 }

/-- C3 counterexample: deleting a key stored in Raw mode does release the
caller-supplied reference (pointer 77 is freed), and deleting an entry of a
Bytes-keyed table does not free the duplicated key buffer (duplicate 2 is
absent from the freed list, which holds only the value copy 3 and the node
1) — both contrary to the claim. -/
theorem C3_counterexample :
    (mht_uint_delete_without_lock
      (mht_uint_set_raw_without_lock planT sampleTable2 5 77).t 5).ok = true ∧
    77 ∈ (mht_uint_delete_without_lock
      (mht_uint_set_raw_without_lock planT sampleTable2 5 77).t 5).freed ∧
    lookupEntry (mht_str_set_without_lock planT sampleTableS
        ⟨some [104, 105], 2⟩ 9 [1, 2] 2).t (.str [104, 105]) =
      some { key := .str [104, 105], dup := 2, node := 1, val := .managed 3 [1, 2] } ∧
    (mht_str_delete_without_lock (mht_str_set_without_lock planT sampleTableS
        ⟨some [104, 105], 2⟩ 9 [1, 2] 2).t ⟨some [104, 105], 2⟩).ok = true ∧
    2 ∉ (mht_str_delete_without_lock (mht_str_set_without_lock planT sampleTableS
        ⟨some [104, 105], 2⟩ 9 [1, 2] 2).t ⟨some [104, 105], 2⟩).freed := by
  decide

/-- C3 (amended): deleting a present key unlinks exactly the matching
entry, frees the stored value pointer regardless of mode (a Raw entry's
caller-supplied reference is released too) together with the node, does not
free the duplicated key buffer of a Bytes-keyed table (only the value
pointer and the node appear in the freed list), decrements count, and
leaves every other key mapped as before. -/
theorem C3_amended (t : Table) (key : KeyRef) (e : Entry)
    (hw : WFb t = true) (ht : keyTypeOf key = t.keyType)
    (hfind : lookupEntry t key = some e) :
    (mht_delete_without_lock_generic t key).ok = true ∧
    (mht_delete_without_lock_generic t key).freed = [valId e.val, e.node] ∧
    (mht_delete_without_lock_generic t key).t.count = t.count - 1 ∧
    mht_get_without_lock_generic (mht_delete_without_lock_generic t key).t key = none ∧
    (flattenT t).Perm (e :: flattenT (mht_delete_without_lock_generic t key).t) ∧
    (∀ k2, eqKey k2 key = false → keyTypeOf k2 = t.keyType →
      mht_get_without_lock_generic (mht_delete_without_lock_generic t key).t k2 =
        mht_get_without_lock_generic t k2) ∧
    WFb (mht_delete_without_lock_generic t key).t = true :=
  delete_found t key e hw ht hfind

/-- The sample table holding key 5 in Raw mode, and its single entry. -/
def sampleRawTable : Table :=
  (mht_uint_set_raw_without_lock planT sampleTable2 5 77).t

/-- The entry sampleRawTable holds. -/
def sampleRawEntry : Entry :=
  { key := .uint 5, dup := 0, node := 1, val := .raw 77 }

/-- Witness for C3 (amended) on the Raw-mode sample entry. -/
theorem C3_amended_witness :
    (WFb sampleRawTable = true ∧ keyTypeOf (.uint 5) = sampleRawTable.keyType ∧
      lookupEntry sampleRawTable (.uint 5) = some sampleRawEntry) ∧
    ((mht_delete_without_lock_generic sampleRawTable (.uint 5)).ok = true ∧
    (mht_delete_without_lock_generic sampleRawTable (.uint 5)).freed =
      [valId sampleRawEntry.val, sampleRawEntry.node] ∧
    (mht_delete_without_lock_generic sampleRawTable (.uint 5)).t.count =
      sampleRawTable.count - 1 ∧
    mht_get_without_lock_generic
      (mht_delete_without_lock_generic sampleRawTable (.uint 5)).t (.uint 5) = none ∧
    (flattenT sampleRawTable).Perm
      (sampleRawEntry :: flattenT
        (mht_delete_without_lock_generic sampleRawTable (.uint 5)).t) ∧
    (∀ k2, eqKey k2 (.uint 5) = false → keyTypeOf k2 = sampleRawTable.keyType →
      mht_get_without_lock_generic
        (mht_delete_without_lock_generic sampleRawTable (.uint 5)).t k2 =
        mht_get_without_lock_generic sampleRawTable k2) ∧
    WFb (mht_delete_without_lock_generic sampleRawTable (.uint 5)).t = true) :=
  ⟨⟨by decide, by decide, by decide⟩,
    C3_amended sampleRawTable (.uint 5) sampleRawEntry
      (by decide) (by decide) (by decide)⟩

/-- C1: on any well-formed table (well-formedness holds for freshly created
tables and, as the conjuncts here show, is preserved by every step, so it
holds along every sequence of set / get / delete calls), a get immediately
after a successful managed set of a key returns a reference to a managed
copy whose bytes equal the supplied value; a get immediately after a
successful raw set returns the supplied reference itself; and a get
immediately after a successful delete of that key reports not-found. -/
theorem C1_get_after_set_and_delete (t : Table) (key : KeyRef)
    (vptr vptr2 : Nat) (vbytes : List Nat) (vsize : Nat)
    (hw : WFb t = true) (ht : keyTypeOf key = t.keyType) (hk : keyOKb key = true)
    (hv : vptr ≠ 0) (hv2 : vptr2 ≠ 0) (hs : vsize ≠ 0) :
    (mht_set_generic planT t key vptr vbytes vsize).ok = true ∧
    (mht_get_without_lock_generic
      (mht_set_generic planT t key vptr vbytes vsize).t key).map isManaged =
        some true ∧
    (mht_get_without_lock_generic
      (mht_set_generic planT t key vptr vbytes vsize).t key).bind valBytes =
        some vbytes ∧
    WFb (mht_set_generic planT t key vptr vbytes vsize).t = true ∧
    (mht_set_generic planT
      (mht_set_generic planT t key vptr vbytes vsize).t key vptr2 [] 0).ok = true ∧
    mht_get_without_lock_generic
      (mht_set_generic planT
        (mht_set_generic planT t key vptr vbytes vsize).t key vptr2 [] 0).t key =
      some (.raw vptr2) ∧
    WFb (mht_set_generic planT
      (mht_set_generic planT t key vptr vbytes vsize).t key vptr2 [] 0).t = true ∧
    (mht_delete_without_lock_generic
      (mht_set_generic planT
        (mht_set_generic planT t key vptr vbytes vsize).t key vptr2 [] 0).t
      key).ok = true ∧
    mht_get_without_lock_generic
      (mht_delete_without_lock_generic
        (mht_set_generic planT
          (mht_set_generic planT t key vptr vbytes vsize).t key vptr2 [] 0).t
        key).t key = none ∧
    WFb (mht_delete_without_lock_generic
      (mht_set_generic planT
        (mht_set_generic planT t key vptr vbytes vsize).t key vptr2 [] 0).t
      key).t = true := by
  have hpos := WFb_size_pos t hw
  have heq1 := set_generic_eq_inChain planT t key vptr vbytes vsize hv ht
  have hok1 : (mht_set_generic planT t key vptr vbytes vsize).ok = true := by
    rw [heq1]
    exact setInChain_ok planT _ key vptr vbytes vsize rfl rfl rfl
  have ht1s : keyTypeOf key = (setStage planT t).keyType := by
    rw [setStage_keyType]
    exact ht
  have hfacts1 := setInChain_success planT (setStage planT t) key vptr vbytes vsize
    (setStage_size_pos planT t hpos) ht1s hk (by rw [heq1] at hok1; exact hok1)
  have hget1 := hfacts1.2.2.1 hs
  have hget1m : (mht_get_without_lock_generic
      (mht_set_generic planT t key vptr vbytes vsize).t key).map isManaged =
        some true := by
    rw [heq1]
    exact hget1.1
  have hget1b : (mht_get_without_lock_generic
      (mht_set_generic planT t key vptr vbytes vsize).t key).bind valBytes =
        some vbytes := by
    rw [heq1]
    exact hget1.2
  have hw1 : WFb (mht_set_generic planT t key vptr vbytes vsize).t = true := by
    rw [heq1]
    exact hfacts1.2.2.2.2.2.2 (setStage_WFb planT t hw)
  have hkt1 : (mht_set_generic planT t key vptr vbytes vsize).t.keyType =
      t.keyType := by
    rw [heq1, hfacts1.2.1, setStage_keyType]
  set t1 := (mht_set_generic planT t key vptr vbytes vsize).t with ht1def
  have ht1 : keyTypeOf key = t1.keyType := by
    rw [hkt1]
    exact ht
  have heq2 := set_generic_eq_inChain planT t1 key vptr2 [] 0 hv2 ht1
  have hok2 : (mht_set_generic planT t1 key vptr2 [] 0).ok = true := by
    rw [heq2]
    exact setInChain_ok planT _ key vptr2 [] 0 rfl rfl rfl
  have hfacts2 := setInChain_success planT (setStage planT t1) key vptr2 [] 0
    (setStage_size_pos planT t1 (WFb_size_pos t1 hw1))
    (by rw [setStage_keyType]; exact ht1) hk (by rw [heq2] at hok2; exact hok2)
  have hget2 : mht_get_without_lock_generic
      (mht_set_generic planT t1 key vptr2 [] 0).t key = some (.raw vptr2) := by
    rw [heq2]
    exact hfacts2.2.2.2.1 rfl
  have hw2 : WFb (mht_set_generic planT t1 key vptr2 [] 0).t = true := by
    rw [heq2]
    exact hfacts2.2.2.2.2.2.2 (setStage_WFb planT t1 hw1)
  have hkt2 : (mht_set_generic planT t1 key vptr2 [] 0).t.keyType = t1.keyType := by
    rw [heq2, hfacts2.2.1, setStage_keyType]
  set t2 := (mht_set_generic planT t1 key vptr2 [] 0).t with ht2def
  have ht2 : keyTypeOf key = t2.keyType := by
    rw [hkt2]
    exact ht1
  have hgl2 : mht_get_without_lock_generic t2 key =
      (lookupEntry t2 key).map (·.val) := get_eq_lookup t2 key ht2
  cases hl : lookupEntry t2 key with
  | none =>
    rw [hgl2, hl] at hget2
    cases hget2
  | some e =>
    have hdel := delete_found t2 key e hw2 ht2 hl
    exact ⟨hok1, hget1m, hget1b, hw1, hok2, hget2, hw2, hdel.1,
      hdel.2.2.2.1, hdel.2.2.2.2.2.2⟩

/-- Witness for C1: managed set of key 5 with bytes 9, raw overwrite with
reference 7, then delete, on the fresh two-bucket table. -/
theorem C1_get_after_set_and_delete_witness :
    (WFb sampleTable2 = true ∧ keyTypeOf (.uint 5) = sampleTable2.keyType ∧
      keyOKb (.uint 5) = true ∧ (3 : Nat) ≠ 0 ∧ (7 : Nat) ≠ 0 ∧ (1 : Nat) ≠ 0) ∧
    ((mht_set_generic planT sampleTable2 (.uint 5) 3 [9] 1).ok = true ∧
    (mht_get_without_lock_generic
      (mht_set_generic planT sampleTable2 (.uint 5) 3 [9] 1).t (.uint 5)).map
        isManaged = some true ∧
    (mht_get_without_lock_generic
      (mht_set_generic planT sampleTable2 (.uint 5) 3 [9] 1).t (.uint 5)).bind
        valBytes = some [9] ∧
    WFb (mht_set_generic planT sampleTable2 (.uint 5) 3 [9] 1).t = true ∧
    (mht_set_generic planT
      (mht_set_generic planT sampleTable2 (.uint 5) 3 [9] 1).t (.uint 5) 7 [] 0).ok =
      true ∧
    mht_get_without_lock_generic
      (mht_set_generic planT
        (mht_set_generic planT sampleTable2 (.uint 5) 3 [9] 1).t (.uint 5) 7 [] 0).t
      (.uint 5) = some (.raw 7) ∧
    WFb (mht_set_generic planT
      (mht_set_generic planT sampleTable2 (.uint 5) 3 [9] 1).t (.uint 5) 7 [] 0).t =
      true ∧
    (mht_delete_without_lock_generic
      (mht_set_generic planT
        (mht_set_generic planT sampleTable2 (.uint 5) 3 [9] 1).t (.uint 5) 7 [] 0).t
      (.uint 5)).ok = true ∧
    mht_get_without_lock_generic
      (mht_delete_without_lock_generic
        (mht_set_generic planT
          (mht_set_generic planT sampleTable2 (.uint 5) 3 [9] 1).t
          (.uint 5) 7 [] 0).t
        (.uint 5)).t (.uint 5) = none ∧
    WFb (mht_delete_without_lock_generic
      (mht_set_generic planT
        (mht_set_generic planT sampleTable2 (.uint 5) 3 [9] 1).t (.uint 5) 7 [] 0).t
      (.uint 5)).t = true) :=
  ⟨⟨by decide, by decide, by decide, by decide, by decide, by decide⟩,
    C1_get_after_set_and_delete sampleTable2 (.uint 5) 3 7 [9] 1
      (by decide) (by decide) (by decide) (by decide) (by decide) (by decide)⟩

end MHT
